import Mathlib

/-!
Verification of the cifuzz fuzz-test orchestration core against its
natural-language specification.

The Go sources are modelled by a shallow embedding: Go strings become
`List Char` (`GoStr`) where string algorithms are involved, or Lean
`String` where only concrete evaluation is needed; stateful or
concurrent code becomes explicit state passing or a step function over an
explicit schedule; fallible code returns `Except`/`Option`.
-/

set_option autoImplicit false

namespace Cifuzz

/-- Go strings, modelled as lists of characters. -/
abbrev GoStr := List Char

/-! ## Corpus entry counting (internal/cmd/run/run.go, countCorpusEntries) -/

/-- Model of a file-system tree: a regular file with its size, or a
directory with its entries (entry names are irrelevant to counting). -/
inductive FSTree where
  | file (size : Nat)
  | dir (entries : List FSTree)

mutual

/-- Number of non-directory entries of non-zero size reachable from a tree,
as visited by `filepath.WalkDir` (run.go lines 711-727: directories are
skipped, files with `info.Size() != 0` are counted). -/
def walkCount : FSTree → Nat
  | .file size => if size ≠ 0 then 1 else 0
  | .dir entries => walkCountList entries

/-- Count over a list of directory entries. -/
def walkCountList : List FSTree → Nat
  | [] => 0
  | t :: ts => walkCount t + walkCountList ts

end

/-- Translation of `countCorpusEntries` (run.go lines 707-738). Each element
of the input list is the tree rooted at one corpus directory, or `none` when
the directory does not exist. The Go loop accumulates `numSeeds`; when
`filepath.WalkDir` fails with a not-exist error the function executes
`return 0, nil`, discarding the accumulator and the remaining directories. -/
def countCorpusEntriesLoop : List (Option FSTree) → Nat → Nat
  | [], numSeeds => numSeeds
  | none :: _, _ => 0
  | some t :: rest, numSeeds => countCorpusEntriesLoop rest (numSeeds + walkCount t)

/-- Entry point of `countCorpusEntries` (run.go line 707): the loop starts
with `numSeeds = 0`. -/
def countCorpusEntries (dirs : List (Option FSTree)) : Nat :=
  countCorpusEntriesLoop dirs 0

/-- Modelled from the spec: the count that §4.4 item 3 of the spec demands,
namely the total number of non-zero-size files across all the given
directories, a missing directory contributing zero entries. -/
def specCorpusCount (dirs : List (Option FSTree)) : Nat :=
  (dirs.map (fun d => match d with | none => 0 | some t => walkCount t)).sum

/-- Claim C4, code_bug evidence: on the input consisting of an existing
directory holding one non-empty file followed by a missing directory,
`countCorpusEntries` returns 0, although the total number of non-zero-size
files in the existing directories is 1. The claim (and the code's own
comment "Don't fail if the seed corpus dir doesn't exist") intend the
missing directory to contribute zero entries without affecting the others,
but the Go code executes `return 0, nil`, discarding all counts. -/
theorem countCorpusEntries_missing_dir_discards_counts :
    countCorpusEntries [some (.dir [.file 1]), none] = 0 ∧
    specCorpusCount [some (.dir [.file 1]), none] = 1 := by
  refine ⟨rfl, ?_⟩
  simp [specCorpusCount, walkCount, walkCountList]

/-! ## The process wrapper (pkg/minijail process_wrapper main.c) -/

/-- Possible outcomes of one invocation of the process wrapper. -/
inductive WrapperOutcome where
  /-- `argc < 3`: usage message, `return 1`. -/
  | exitUsage
  /-- `chdir(argv[1])` failed: `return 1`. -/
  | exitChdirFail
  /-- `execv(argv[3], argv + 3)` returned -1: `return 1`. -/
  | exitExecFail
  /-- `execv` was reached with a null program pointer: `argv[3]` is the
  terminating null pointer of the argument vector (`argc == 3`). -/
  | execvNull
  /-- The target was executed: program `prog` with argument vector `args`. -/
  | exec (prog : String) (args : List String)
  deriving DecidableEq, Repr

/-- Translation of the process wrapper's `main` (process_wrapper main.c,
lines 8-28). `argv` is the C argument vector (without the terminating null
pointer); `chdirOk dir` models whether `chdir(dir)` succeeds and
`execOk prog` whether `execv(prog, ...)` succeeds. The C code checks
`argc < 3`, calls `chdir(argv[1])`, then calls `execv(argv[3], argv + 3)`;
when `argc == 3`, `argv[3]` is the null terminator of the vector, modelled
by `argv.get? 3 = none`. -/
def processWrapperMain (argv : List String) (chdirOk execOk : String → Bool) :
    WrapperOutcome :=
  if argv.length < 3 then .exitUsage
  else if ¬ chdirOk ((argv.get? 1).getD "") then .exitChdirFail
  else
    match argv.get? 3 with
    | none => .execvNull
    | some prog =>
        if execOk prog then .exec prog (argv.drop 3) else .exitExecFail

/-- Claim C9, code_bug evidence: the invocation
`process_wrapper /work/dir --` has `argc == 3` and passes the
argument-count check (`argc < 3` is false), yet the pointer handed to
`execv` is `argv[3]`, the null terminator of the argument vector. The
claim (and the wrapper's own header comment, which says it executes
`argv[3]`) require a valid program path there; an `argc < 4` check would
be needed for that. -/
theorem processWrapper_argc3_passes_check_but_execs_null :
    processWrapperMain ["process_wrapper", "/work/dir", "--"]
      (fun _ => true) (fun _ => true) = .execvNull := by
  rfl

/-! ## Go string primitives

Character-level models of the Go standard-library string functions used by
the sources (`strings.Split`, `strings.SplitN`, `strings.Join`,
`strconv.Atoi`), together with the inversion lemmas relating them. -/

/-- Model of `strings.Split(s, sep)` for a one-character separator: the
list of substrings between occurrences of `sep`. `strings.Split("", sep)`
returns `[""]`. -/
def splitChar (sep : Char) : GoStr → List GoStr
  | [] => [[]]
  | c :: cs =>
    let r := splitChar sep cs
    if c = sep then [] :: r else (c :: r.headI) :: r.tail

/-- Model of `strings.Join(elems, sep)` for a one-character separator. -/
def joinChar (sep : Char) : List GoStr → GoStr
  | [] => []
  | [a] => a
  | a :: b :: rest => a ++ sep :: joinChar sep (b :: rest)

/-- Splits a string at the first occurrence of `sep`, returning the parts
before and after it, or `none` when `sep` does not occur. -/
def breakAtSep (sep : Char) : GoStr → Option (GoStr × GoStr)
  | [] => none
  | c :: cs =>
    if c = sep then some ([], cs)
    else (breakAtSep sep cs).map (fun p => (c :: p.1, p.2))

/-- Model of `strings.SplitN(s, sep, n)` for a one-character separator and
`n ≥ 0`: at most `n` substrings, the last one holding the unsplit rest.
As in Go, `n = 0` yields the empty list. -/
def goSplitN (sep : Char) : Nat → GoStr → List GoStr
  | 0, _ => []
  | 1, s => [s]
  | n + 2, s =>
    match breakAtSep sep s with
    | none => [s]
    | some (a, rest) => a :: goSplitN sep (n + 1) rest

theorem splitChar_ne_nil (sep : Char) (s : GoStr) : splitChar sep s ≠ [] := by
  induction s with
  | nil => simp [splitChar]
  | cons c cs ih =>
    simp only [splitChar]
    split <;> simp

theorem sep_not_mem_of_mem_splitChar {sep : Char} {s : GoStr} {x : GoStr}
    (hx : x ∈ splitChar sep s) : sep ∉ x := by
  induction s generalizing x with
  | nil =>
    simp only [splitChar, List.mem_singleton] at hx
    simp [hx]
  | cons c cs ih =>
    obtain ⟨t, ts, hr⟩ : ∃ t ts, splitChar sep cs = t :: ts := by
      cases h : splitChar sep cs with
      | nil => exact absurd h (splitChar_ne_nil sep cs)
      | cons t ts => exact ⟨t, ts, rfl⟩
    simp only [splitChar, hr, List.headI_cons, List.tail_cons] at hx
    by_cases hc : c = sep
    · rw [if_pos hc] at hx
      rcases List.mem_cons.mp hx with h1 | h1
      · simp [h1]
      · exact ih (hr.symm ▸ h1)
    · rw [if_neg hc] at hx
      rcases List.mem_cons.mp hx with h1 | h1
      · subst h1
        intro hmem
        rcases List.mem_cons.mp hmem with h2 | h2
        · exact hc h2.symm
        · exact ih (hr.symm ▸ List.mem_cons_self t ts) h2
      · exact ih (hr.symm ▸ List.mem_cons_of_mem t h1)

theorem splitChar_of_not_mem {sep : Char} {s : GoStr} (h : sep ∉ s) :
    splitChar sep s = [s] := by
  induction s with
  | nil => rfl
  | cons c cs ih =>
    have hc : c ≠ sep := fun hc => h (hc ▸ List.mem_cons_self c cs)
    have hcs : sep ∉ cs := fun hm => h (List.mem_cons_of_mem c hm)
    simp [splitChar, if_neg hc, ih hcs]

theorem splitChar_append_sep {sep : Char} {a : GoStr} (s : GoStr)
    (h : sep ∉ a) : splitChar sep (a ++ sep :: s) = a :: splitChar sep s := by
  induction a with
  | nil => simp [splitChar]
  | cons c cs ih =>
    have hc : c ≠ sep := fun hc => h (hc ▸ List.mem_cons_self c cs)
    have hcs : sep ∉ cs := fun hm => h (List.mem_cons_of_mem c hm)
    simp [List.cons_append, splitChar, if_neg hc, ih hcs]

theorem splitChar_joinChar {sep : Char} {l : List GoStr} (hne : l ≠ [])
    (hfree : ∀ x ∈ l, sep ∉ x) : splitChar sep (joinChar sep l) = l := by
  induction l with
  | nil => exact absurd rfl hne
  | cons a rest ih =>
    cases rest with
    | nil =>
      simp only [joinChar]
      exact splitChar_of_not_mem (hfree a (List.mem_cons_self a []))
    | cons b rest' =>
      simp only [joinChar]
      rw [splitChar_append_sep _ (hfree a (List.mem_cons_self a _))]
      rw [ih (by simp) (fun x hx => hfree x (List.mem_cons_of_mem a hx))]

theorem breakAtSep_of_not_mem {sep : Char} {s : GoStr} (h : sep ∉ s) :
    breakAtSep sep s = none := by
  induction s with
  | nil => rfl
  | cons c cs ih =>
    have hc : c ≠ sep := fun hc => h (hc ▸ List.mem_cons_self c cs)
    have hcs : sep ∉ cs := fun hm => h (List.mem_cons_of_mem c hm)
    simp [breakAtSep, if_neg hc, ih hcs]

theorem breakAtSep_append {sep : Char} {a : GoStr} (s : GoStr) (h : sep ∉ a) :
    breakAtSep sep (a ++ sep :: s) = some (a, s) := by
  induction a with
  | nil => simp [breakAtSep]
  | cons c cs ih =>
    have hc : c ≠ sep := fun hc => h (hc ▸ List.mem_cons_self c cs)
    have hcs : sep ∉ cs := fun hm => h (List.mem_cons_of_mem c hm)
    simp [breakAtSep, if_neg hc, ih hcs]

theorem goSplitN_step {sep : Char} {s a rest : GoStr} (n : Nat)
    (h : breakAtSep sep s = some (a, rest)) :
    goSplitN sep (n + 2) s = a :: goSplitN sep (n + 1) rest := by
  rw [goSplitN, h]

theorem goSplitN_last {sep : Char} {s : GoStr} (n : Nat)
    (h : breakAtSep sep s = none) : goSplitN sep (n + 2) s = [s] := by
  rw [goSplitN, h]

theorem goSplitN_one (sep : Char) (s : GoStr) : goSplitN sep 1 s = [s] := rfl

theorem goSplitN3_no_sep {sep : Char} {a : GoStr} (ha : sep ∉ a) :
    goSplitN sep 3 a = [a] := by
  rw [show (3 : Nat) = 1 + 2 from rfl, goSplitN_last 1 (breakAtSep_of_not_mem ha)]

theorem goSplitN3_one_sep {sep : Char} {a b : GoStr} (ha : sep ∉ a)
    (hb : sep ∉ b) : goSplitN sep 3 (a ++ sep :: b) = [a, b] := by
  rw [show (3 : Nat) = 1 + 2 from rfl, goSplitN_step 1 (breakAtSep_append _ ha),
    show (1 + 1 : Nat) = 0 + 2 from rfl,
    goSplitN_last 0 (breakAtSep_of_not_mem hb)]

theorem goSplitN3_two_sep {sep : Char} {a b c : GoStr} (ha : sep ∉ a)
    (hb : sep ∉ b) : goSplitN sep 3 (a ++ sep :: (b ++ sep :: c)) = [a, b, c] := by
  rw [show (3 : Nat) = 1 + 2 from rfl, goSplitN_step 1 (breakAtSep_append _ ha),
    show (1 + 1 : Nat) = 0 + 2 from rfl,
    goSplitN_step 0 (breakAtSep_append _ hb)]
  rfl

/-- Value of a run of decimal digits, most significant first. -/
def digitsToNat (s : GoStr) : Nat :=
  s.foldl (fun acc c => acc * 10 + (c.toNat - Char.toNat '0')) 0

/-- Model of `strconv.Atoi`: an optional sign followed by at least one
decimal digit; anything else is an error. (Range errors for values beyond
64 bits are not modelled; the inputs in question are `"0"` and `"1"`.) -/
def goAtoi (s : GoStr) : Option Int :=
  match s with
  | [] => none
  | '+' :: rest =>
    if rest ≠ [] ∧ rest.all (·.isDigit) then some (digitsToNat rest) else none
  | '-' :: rest =>
    if rest ≠ [] ∧ rest.all (·.isDigit) then some (-(digitsToNat rest : Int))
    else none
  | s =>
    if s.all (·.isDigit) then some (digitsToNat s) else none

/-! ## Minijail bindings (pkg/minijail minijail.go)

`Binding` and its (de)serialization, shared by the legacy and the
config-file minijail variants. Go's `WritableOption` is an `int`
(`ReadOnly = 0`, `ReadWrite = 1`), and `BindingFromString` parses the
third field with `strconv.Atoi`, so the model uses `Int`. -/

structure MJBinding where
  Source : GoStr
  Target : GoStr
  Writable : Int
  deriving DecidableEq, Repr

/-- Target after the defaulting performed at the start of
`Binding.String` (minijail.go lines 52-54): an empty `Target` is replaced
by `Source`. -/
def effectiveTarget (b : MJBinding) : GoStr :=
  if b.Target = [] then b.Source else b.Target

/-- Translation of `Binding.String` (minijail.go lines 51-67): read-write
bindings and bindings whose source or target contains a comma use the
three-field form `src,target,w`; otherwise `src,target` or just `src`
when the two coincide. -/
def bindingString (b : MJBinding) : GoStr :=
  if b.Writable = 1 then b.Source ++ ',' :: (effectiveTarget b ++ [',', '1'])
  else if ',' ∈ b.Source ∨ ',' ∈ effectiveTarget b then
    b.Source ++ ',' :: (effectiveTarget b ++ [',', '0'])
  else if b.Source ≠ effectiveTarget b then b.Source ++ ',' :: effectiveTarget b
  else b.Source

/-- Translation of `BindingFromString` (minijail.go lines 69-84):
`strings.SplitN(s, ",", 3)` followed by a case split on the number of
tokens; a three-token form parses its last token with `strconv.Atoi`. -/
def BindingFromString (s : GoStr) : Except String MJBinding :=
  match goSplitN ',' 3 s with
  | [t0] => .ok ⟨t0, t0, 0⟩
  | [t0, t1] => .ok ⟨t0, t1, 0⟩
  | [t0, t1, t2] =>
    match goAtoi t2 with
    | some w => .ok ⟨t0, t1, w⟩
    | none => .error "Atoi"
  | _ => .error "Bad binding"

theorem comma_not_mem_effectiveTarget {b : MJBinding} (hs : ',' ∉ b.Source)
    (ht : ',' ∉ b.Target) : ',' ∉ effectiveTarget b := by
  unfold effectiveTarget
  split <;> assumption

/-- Round-trip of serialization for bindings whose source and target are
free of commas and whose writable option is one of the two declared
values. The parsed binding carries the effective target. Shared between
the round-trip claims about the two minijail variants. -/
theorem bindingString_roundTrip (b : MJBinding) (hs : ',' ∉ b.Source)
    (ht : ',' ∉ b.Target) (hw : b.Writable = 0 ∨ b.Writable = 1) :
    BindingFromString (bindingString b) =
      .ok ⟨b.Source, effectiveTarget b, b.Writable⟩ := by
  have htgt : ',' ∉ effectiveTarget b := comma_not_mem_effectiveTarget hs ht
  rcases hw with hw | hw
  · by_cases heq : b.Source = effectiveTarget b
    · have hstr : bindingString b = b.Source := by
        unfold bindingString
        rw [if_neg (by rw [hw]; decide), if_neg (by push_neg; exact ⟨hs, htgt⟩),
          if_neg (by simpa using heq)]
      rw [hstr]
      unfold BindingFromString
      rw [goSplitN3_no_sep hs, hw, heq]
    · have hstr : bindingString b = b.Source ++ ',' :: effectiveTarget b := by
        unfold bindingString
        rw [if_neg (by rw [hw]; decide), if_neg (by push_neg; exact ⟨hs, htgt⟩),
          if_pos (by simpa using heq)]
      rw [hstr]
      unfold BindingFromString
      rw [goSplitN3_one_sep hs htgt, hw]
  · have hstr : bindingString b =
        b.Source ++ ',' :: (effectiveTarget b ++ ',' :: ['1']) := by
      unfold bindingString
      rw [if_pos hw]
    rw [hstr]
    unfold BindingFromString
    rw [goSplitN3_two_sep hs htgt, hw]
    rfl

/-- Claim C2, counterexample: for the binding with source `"a,b"` (and
empty target, read-only), `Binding.String` produces `"a,b,a,b,0"`, and
`BindingFromString` splits it into `["a", "b", "a,b,0"]`, so
`strconv.Atoi("a,b,0")` fails and the round trip errors instead of
succeeding as the claim states. -/
theorem bindingFromString_comma_source_fails :
    BindingFromString (bindingString ⟨['a', ',', 'b'], [], 0⟩) =
      .error "Atoi" := by
  rfl

/-- Claim C2 (amended): for every binding whose source and target contain
no comma and whose writable option is `ReadOnly` (0) or `ReadWrite` (1),
`BindingFromString (Binding.String b)` succeeds and returns a binding with
the same source, the effective target (source when the target is empty),
and the same writable option. For a source or target containing a comma
the three-field form is not comma-safe and parsing fails. -/
theorem binding_roundTrip_no_comma (b : MJBinding) (hs : ',' ∉ b.Source)
    (ht : ',' ∉ b.Target) (hw : b.Writable = 0 ∨ b.Writable = 1) :
    BindingFromString (bindingString b) =
      .ok ⟨b.Source, effectiveTarget b, b.Writable⟩ :=
  bindingString_roundTrip b hs ht hw

/-- Claim C2 witness: the amended round trip evaluated on the concrete
read-write binding `{Source: "/src", Target: "/tgt", Writable: 1}`. -/
theorem binding_roundTrip_no_comma_witness :
    BindingFromString (bindingString ⟨['/', 's'], ['/', 't'], 1⟩) =
      .ok ⟨['/', 's'], ['/', 't'], 1⟩ :=
  binding_roundTrip_no_comma ⟨['/', 's'], ['/', 't'], 1⟩ (by decide) (by decide)
    (by decide)

/-! ## Sanitizer options (pkg/runner part_004, lines 97-132)

`SetSanitizerOptions` splits the existing options string on `":"`, applies
defaults with set-if-missing semantics and overrides with replace
semantics, and joins the non-empty entries again. The Go code iterates
over `map[string]string` values, whose iteration order is unspecified;
the embedding therefore takes the defaults and overrides as association
lists in an arbitrary order, and the theorems hold for every order of
key-distinct entries. -/

/-- Translation of `setDefaultIfNotSetAlready` (part_004 lines 111-120):
return the options unchanged when some entry starts with `key=`, else
append `key=value`. -/
def setDefaultIfNotSetAlready (options : List GoStr) (key value : GoStr) :
    List GoStr :=
  if options.any (fun o => (key ++ ['=']).isPrefixOf o) then options
  else options ++ [key ++ '=' :: value]

/-- Translation of `overrideOption` (part_004 lines 122-132): replace the
first entry starting with `key=` by `key=value`, or append `key=value`
when there is none. -/
def overrideOption (options : List GoStr) (key value : GoStr) : List GoStr :=
  match options with
  | [] => [key ++ '=' :: value]
  | o :: rest =>
    if (key ++ ['=']).isPrefixOf o then (key ++ '=' :: value) :: rest
    else o :: overrideOption rest key value

/-- Modelled from the spec: `stringutil.JoinNonEmpty` (util/stringutil is
not part of the provided sources) joins the non-empty elements with the
separator, matching §4.1's composition of option strings without empty
entries. -/
def JoinNonEmpty (elems : List GoStr) (sep : Char) : GoStr :=
  joinChar sep (elems.filter (fun e => e ≠ []))

/-- Translation of `SetSanitizerOptions` (part_004 lines 97-109). -/
def SetSanitizerOptions (existing : GoStr)
    (defaults overrides : List (GoStr × GoStr)) : GoStr :=
  let options := splitChar ':' existing
  let options := defaults.foldl
    (fun opts kv => setDefaultIfNotSetAlready opts kv.1 kv.2) options
  let options := overrides.foldl
    (fun opts kv => overrideOption opts kv.1 kv.2) options
  JoinNonEmpty options ':'

/-- Key of an option entry: the characters before the first `=`. -/
def optionKey (o : GoStr) : GoStr := o.takeWhile (fun c => c ≠ '=')

/-- Well-formedness of one entry of an options list: empty, or containing
a `=` (so that it is a `key=value` entry). -/
def WFOpt (o : GoStr) : Prop := o = [] ∨ '=' ∈ o

instance (o : GoStr) : Decidable (WFOpt o) := by unfold WFOpt; infer_instance

/-- Keys of the non-empty entries of an options list. -/
def keysOf (l : List GoStr) : List GoStr :=
  (l.filter (fun o => o ≠ [])).map optionKey

/-- The test the source uses for "this key is already set": some entry
starts with `key=`. -/
def isSetB (options : List GoStr) (key : GoStr) : Bool :=
  options.any (fun o => (key ++ ['=']).isPrefixOf o)

theorem eq_not_mem_optionKey (o : GoStr) : '=' ∉ optionKey o := by
  intro h
  have := List.mem_takeWhile_imp h
  simp at this

theorem optionKey_key_value {k v : GoStr} (hk : '=' ∉ k) :
    optionKey (k ++ '=' :: v) = k := by
  induction k with
  | nil =>
    unfold optionKey
    rw [List.nil_append, List.takeWhile_cons, if_neg (by simp)]
  | cons c cs ih =>
    have hc : c ≠ '=' := fun hc => hk (hc ▸ List.mem_cons_self c cs)
    have hcs : '=' ∉ cs := fun hm => hk (List.mem_cons_of_mem c hm)
    unfold optionKey at ih ⊢
    rw [List.cons_append, List.takeWhile_cons, if_pos (by simpa using hc)]
    exact congrArg (c :: ·) (ih hcs)

/-- Decomposition of a well-formed non-empty entry into key, `=`, value. -/
theorem wfOpt_decomp {o : GoStr} (h : '=' ∈ o) :
    o = optionKey o ++ '=' :: (o.dropWhile (fun c => c ≠ '=')).tail := by
  induction o with
  | nil => cases h
  | cons c cs ih =>
    by_cases hc : c = '='
    · subst hc
      unfold optionKey
      rw [List.takeWhile_cons, if_neg (by simp), List.dropWhile_cons,
        if_neg (by simp), List.nil_append, List.tail_cons]
    · have hcs : '=' ∈ cs := by
        rcases List.mem_cons.mp h with h1 | h1
        · exact absurd h1.symm hc
        · exact h1
      unfold optionKey at ih ⊢
      rw [List.takeWhile_cons, if_pos (by simpa using hc), List.dropWhile_cons,
        if_pos (by simpa using hc), List.cons_append]
      exact congrArg (c :: ·) (ih hcs)

/-- The prefix test `key= <+: k'=v'` holds exactly when the keys agree,
provided neither key contains `=`. -/
theorem keyEq_test {k kx v : GoStr} (hk : '=' ∉ k) (hkx : '=' ∉ kx) :
    (k ++ ['=']) <+: (kx ++ '=' :: v) ↔ k = kx := by
  constructor
  · intro h
    induction k generalizing kx with
    | nil =>
      cases kx with
      | nil => rfl
      | cons c cs =>
        obtain ⟨t, ht⟩ := h
        simp only [List.nil_append, List.singleton_append, List.cons_append] at ht
        have : c = '=' := (List.cons.injEq _ _ _ _ ▸ ht).1.symm
        exact absurd (this ▸ List.mem_cons_self c cs) hkx
    | cons c cs ih =>
      have hcs : '=' ∉ cs := fun hm => hk (List.mem_cons_of_mem c hm)
      cases kx with
      | nil =>
        obtain ⟨t, ht⟩ := h
        simp only [List.cons_append, List.nil_append] at ht
        have hc : c = '=' := (List.cons.injEq _ _ _ _ ▸ ht).1
        exact absurd (hc ▸ List.mem_cons_self c cs) hk
      | cons cx csx =>
        have hcsx : '=' ∉ csx := fun hm => hkx (List.mem_cons_of_mem cx hm)
        obtain ⟨t, ht⟩ := h
        simp only [List.cons_append] at ht
        obtain ⟨hc, hrest⟩ := List.cons.injEq _ _ _ _ ▸ ht
        have : (cs ++ ['=']) <+: (csx ++ '=' :: v) := ⟨t, hrest⟩
        rw [hc, ih hcs hcsx this]
  · rintro rfl
    exact ⟨v, by simp⟩

/-- For a well-formed non-empty entry, the prefix test picks out exactly
the entries with the given key. -/
theorem test_iff_optionKey {k o : GoStr} (hk : '=' ∉ k) (ho : WFOpt o)
    (hne : o ≠ []) : (k ++ ['=']) <+: o ↔ optionKey o = k := by
  rcases ho with h | h
  · exact absurd h hne
  · have hdec := wfOpt_decomp h
    constructor
    · intro hp
      rw [hdec] at hp
      exact ((keyEq_test hk (eq_not_mem_optionKey o)).mp hp).symm
    · intro hkey
      rw [hdec, hkey]
      generalize (List.dropWhile (fun c => decide (c ≠ '=')) o).tail = t
      exact ⟨t, by simp⟩

/-- An entry starting with `key=` is non-empty. -/
theorem ne_nil_of_test {k o : GoStr} (h : (k ++ ['=']) <+: o) : o ≠ [] := by
  rintro rfl
  have := h.length_le
  simp at this

/-- The defaults loop of `SetSanitizerOptions` (part_004 lines 100-102). -/
def applyDefaults (options : List GoStr) (defaults : List (GoStr × GoStr)) :
    List GoStr :=
  defaults.foldl (fun opts kv => setDefaultIfNotSetAlready opts kv.1 kv.2) options

/-- The overrides loop of `SetSanitizerOptions` (part_004 lines 104-106). -/
def applyOverrides (options : List GoStr) (overrides : List (GoStr × GoStr)) :
    List GoStr :=
  overrides.foldl (fun opts kv => overrideOption opts kv.1 kv.2) options

theorem SetSanitizerOptions_eq (existing : GoStr)
    (defaults overrides : List (GoStr × GoStr)) :
    SetSanitizerOptions existing defaults overrides =
      JoinNonEmpty (applyOverrides (applyDefaults (splitChar ':' existing)
        defaults) overrides) ':' := rfl

theorem isSetB_iff_key_mem {options : List GoStr} {k : GoStr} (hk : '=' ∉ k)
    (hWF : ∀ o ∈ options, WFOpt o) :
    isSetB options k = true ↔ k ∈ keysOf options := by
  unfold isSetB keysOf
  rw [List.any_eq_true]
  constructor
  · rintro ⟨o, ho, htest⟩
    have hp : (k ++ ['=']) <+: o := List.isPrefixOf_iff_prefix.mp htest
    have hne := ne_nil_of_test hp
    have hkey := (test_iff_optionKey hk (hWF o ho) hne).mp hp
    exact List.mem_map.mpr ⟨o, List.mem_filter.mpr ⟨ho, by simpa using hne⟩, hkey⟩
  · intro hmem
    obtain ⟨o, hof, hkey⟩ := List.mem_map.mp hmem
    obtain ⟨ho, hone⟩ := List.mem_filter.mp hof
    have hne : o ≠ [] := by simpa using hone
    exact ⟨o, ho,
      List.isPrefixOf_iff_prefix.mpr ((test_iff_optionKey hk (hWF o ho) hne).mpr hkey)⟩

theorem test_keyValue_false {k kx v : GoStr} (hk : '=' ∉ k) (hkx : '=' ∉ kx)
    (hne : k ≠ kx) : ((k ++ ['=']).isPrefixOf (kx ++ '=' :: v)) = false := by
  rw [Bool.eq_false_iff]
  intro hT
  exact hne ((keyEq_test hk hkx).mp (List.isPrefixOf_iff_prefix.mp hT))

theorem setDefault_of_set {options : List GoStr} {k : GoStr} (v : GoStr)
    (h : isSetB options k = true) :
    setDefaultIfNotSetAlready options k v = options := by
  have h2 : (options.any fun o => (k ++ ['=']).isPrefixOf o) = true := h
  unfold setDefaultIfNotSetAlready
  rw [if_pos h2]

theorem setDefault_of_not_set {options : List GoStr} {k : GoStr} (v : GoStr)
    (h : isSetB options k = false) :
    setDefaultIfNotSetAlready options k v = options ++ [k ++ '=' :: v] := by
  have h2 : (options.any fun o => (k ++ ['=']).isPrefixOf o) = false := h
  unfold setDefaultIfNotSetAlready
  rw [if_neg (by simp [h2])]

theorem isSetB_append (l₁ l₂ : List GoStr) (k : GoStr) :
    isSetB (l₁ ++ l₂) k = (isSetB l₁ k || isSetB l₂ k) := by
  simp [isSetB, List.any_append]

/-- Closed form of the defaults loop: the original options followed by one
`key=value` entry for each default whose key is not yet set, in default
order. The loop checks each default against the list grown so far, but
with pairwise-distinct and `=`-free default keys the check against the
original options is equivalent. -/
theorem applyDefaults_eq {D : List (GoStr × GoStr)} {options : List GoStr}
    (hDk : ∀ kv ∈ D, '=' ∉ kv.1) (hD : (D.map Prod.fst).Nodup) :
    applyDefaults options D =
      options ++ (D.filter (fun kv => ! isSetB options kv.1)).map
        (fun kv => kv.1 ++ '=' :: kv.2) := by
  induction D generalizing options with
  | nil => simp [applyDefaults]
  | cons kv D ih =>
    obtain ⟨k, v⟩ := kv
    have hk : '=' ∉ k := hDk (k, v) (List.mem_cons_self _ _)
    have hDk2 : ∀ kv ∈ D, '=' ∉ kv.1 :=
      fun kv h => hDk kv (List.mem_cons_of_mem _ h)
    have hDcons : (k :: D.map Prod.fst).Nodup := by simpa using hD
    have hknotin : k ∉ D.map Prod.fst := (List.nodup_cons.mp hDcons).1
    have hD2 : (D.map Prod.fst).Nodup := (List.nodup_cons.mp hDcons).2
    have hstep : applyDefaults options ((k, v) :: D) =
        applyDefaults (setDefaultIfNotSetAlready options k v) D := rfl
    cases h : isSetB options k with
    | true =>
      rw [hstep, setDefault_of_set v h, ih hDk2 hD2]
      simp [List.filter_cons, h]
    | false =>
      rw [hstep, setDefault_of_not_set v h, ih hDk2 hD2]
      have hfilter : D.filter (fun kv => ! isSetB (options ++ [k ++ '=' :: v]) kv.1) =
          D.filter (fun kv => ! isSetB options kv.1) := by
        apply List.filter_congr
        intro kv hkv
        have hkne : kv.1 ≠ k := by
          intro hEq
          exact hknotin (hEq ▸ List.mem_map_of_mem Prod.fst hkv)
        rw [isSetB_append]
        have : isSetB [k ++ '=' :: v] kv.1 = false := by
          simp only [isSetB, List.any_cons, List.any_nil, Bool.or_false]
          exact test_keyValue_false (hDk2 kv hkv) hk hkne
        rw [this, Bool.or_false]
      rw [hfilter]
      simp [List.filter_cons, h]

theorem overrideOption_mem_new (options : List GoStr) (k v : GoStr) :
    (k ++ '=' :: v) ∈ overrideOption options k v := by
  induction options with
  | nil => simp [overrideOption]
  | cons o rest ih =>
    unfold overrideOption
    split
    · exact List.mem_cons_self _ _
    · exact List.mem_cons_of_mem _ ih

theorem mem_of_mem_overrideOption {x : GoStr} {options : List GoStr}
    {k v : GoStr} (hx : x ∈ overrideOption options k v) :
    x ∈ options ∨ x = k ++ '=' :: v := by
  induction options with
  | nil =>
    simp only [overrideOption, List.mem_singleton] at hx
    exact Or.inr hx
  | cons o rest ih =>
    unfold overrideOption at hx
    split at hx
    · rcases List.mem_cons.mp hx with h1 | h1
      · exact Or.inr h1
      · exact Or.inl (List.mem_cons_of_mem _ h1)
    · rcases List.mem_cons.mp hx with h1 | h1
      · exact Or.inl (h1 ▸ List.mem_cons_self o rest)
      · rcases ih h1 with h2 | h2
        · exact Or.inl (List.mem_cons_of_mem _ h2)
        · exact Or.inr h2

theorem mem_overrideOption_of_mem {x : GoStr} {options : List GoStr}
    {k v : GoStr} (hx : x ∈ options) (hnp : ¬ (k ++ ['=']) <+: x) :
    x ∈ overrideOption options k v := by
  induction options with
  | nil => cases hx
  | cons o rest ih =>
    unfold overrideOption
    split
    · rcases List.mem_cons.mp hx with h1 | h1
      · rename_i htest
        exact absurd (h1 ▸ List.isPrefixOf_iff_prefix.mp htest) hnp
      · exact List.mem_cons_of_mem _ h1
    · rcases List.mem_cons.mp hx with h1 | h1
      · exact h1 ▸ List.mem_cons_self o _
      · exact List.mem_cons_of_mem _ (ih h1)

theorem overrideOption_of_not_set {options : List GoStr} {k : GoStr}
    (v : GoStr) (h : isSetB options k = false) :
    overrideOption options k v = options ++ [k ++ '=' :: v] := by
  induction options with
  | nil => rfl
  | cons o rest ih =>
    simp only [isSetB, List.any_cons, Bool.or_eq_false_iff] at h
    unfold overrideOption
    rw [if_neg (by rw [h.1]; simp)]
    rw [ih h.2, List.cons_append]

theorem keysOf_cons_ne {o : GoStr} (rest : List GoStr) (h : o ≠ []) :
    keysOf (o :: rest) = optionKey o :: keysOf rest := by
  simp [keysOf, List.filter_cons, h]

theorem keysOf_cons_nil (rest : List GoStr) :
    keysOf ([] :: rest) = keysOf rest := by
  simp [keysOf, List.filter_cons]

theorem keyValue_ne_nil (k v : GoStr) : k ++ '=' :: v ≠ [] := by
  simp

theorem keysOf_overrideOption_of_set {options : List GoStr} {k : GoStr}
    (v : GoStr) (hk : '=' ∉ k) (hWF : ∀ o ∈ options, WFOpt o)
    (h : isSetB options k = true) :
    keysOf (overrideOption options k v) = keysOf options := by
  induction options with
  | nil => simp [isSetB] at h
  | cons o rest ih =>
    unfold overrideOption
    split
    · rename_i htest
      have hp := List.isPrefixOf_iff_prefix.mp htest
      have hne := ne_nil_of_test hp
      have hkey := (test_iff_optionKey hk
        (hWF o (List.mem_cons_self o rest)) hne).mp hp
      rw [keysOf_cons_ne _ (keyValue_ne_nil k v), keysOf_cons_ne _ hne,
        optionKey_key_value hk, hkey]
    · rename_i htest
      have hrest : isSetB rest k = true := by
        simp only [isSetB, List.any_cons] at h
        rcases Bool.or_eq_true_iff.mp h with h1 | h1
        · exact absurd h1 (by simpa using htest)
        · exact h1
      have hWF2 : ∀ x ∈ rest, WFOpt x := fun x hx => hWF x (List.mem_cons_of_mem o hx)
      by_cases ho : o = []
      · rw [ho, keysOf_cons_nil, keysOf_cons_nil]
        exact ih hWF2 hrest
      · rw [keysOf_cons_ne _ ho, keysOf_cons_ne _ ho]
        rw [ih hWF2 hrest]

theorem keysOf_append (l₁ l₂ : List GoStr) :
    keysOf (l₁ ++ l₂) = keysOf l₁ ++ keysOf l₂ := by
  simp [keysOf, List.filter_append]

theorem keysOf_singleton_keyValue {k : GoStr} (v : GoStr) (hk : '=' ∉ k) :
    keysOf [k ++ '=' :: v] = [k] := by
  rw [keysOf_cons_ne _ (keyValue_ne_nil k v), optionKey_key_value hk]
  rfl

theorem applyOverrides_cons (options : List GoStr) (kv : GoStr × GoStr)
    (O : List (GoStr × GoStr)) :
    applyOverrides options (kv :: O) =
      applyOverrides (overrideOption options kv.1 kv.2) O := rfl

theorem mem_applyOverrides_of_mem {O : List (GoStr × GoStr)}
    {options : List GoStr} {x : GoStr} (hx : x ∈ options)
    (hnp : ∀ kv ∈ O, ¬ (kv.1 ++ ['=']) <+: x) : x ∈ applyOverrides options O := by
  induction O generalizing options with
  | nil => exact hx
  | cons kv O ih =>
    rw [applyOverrides_cons]
    exact ih (mem_overrideOption_of_mem hx (hnp kv (List.mem_cons_self _ _)))
      (fun kv2 h2 => hnp kv2 (List.mem_cons_of_mem _ h2))

theorem applyOverrides_contains {O : List (GoStr × GoStr)}
    (hOk : ∀ kv ∈ O, '=' ∉ kv.1) (hO : (O.map Prod.fst).Nodup) :
    ∀ options, ∀ kv ∈ O, kv.1 ++ '=' :: kv.2 ∈ applyOverrides options O := by
  induction O with
  | nil => intro _ kv h; cases h
  | cons kv0 O ih =>
    intro options kv hkv
    obtain ⟨k0, v0⟩ := kv0
    have hOcons : (k0 :: O.map Prod.fst).Nodup := by simpa using hO
    have hk0 : '=' ∉ k0 := hOk (k0, v0) (List.mem_cons_self _ _)
    have hOk2 : ∀ kv ∈ O, '=' ∉ kv.1 :=
      fun kv h => hOk kv (List.mem_cons_of_mem _ h)
    rw [applyOverrides_cons]
    rcases List.mem_cons.mp hkv with h1 | h1
    · subst h1
      apply mem_applyOverrides_of_mem (overrideOption_mem_new options k0 v0)
      intro kv2 h2 hp
      have hk2 : '=' ∉ kv2.1 := hOk2 kv2 h2
      have hEq := (keyEq_test hk2 hk0).mp hp
      exact (List.nodup_cons.mp hOcons).1
        (hEq ▸ List.mem_map_of_mem Prod.fst h2)
    · exact ih hOk2 (List.nodup_cons.mp hOcons).2 _ kv h1

theorem applyOverrides_shape {O : List (GoStr × GoStr)} :
    ∀ options, ∀ y ∈ applyOverrides options O,
      y ∈ options ∨ ∃ kv ∈ O, y = kv.1 ++ '=' :: kv.2 := by
  induction O with
  | nil => intro _ y hy; exact Or.inl hy
  | cons kv0 O ih =>
    intro options y hy
    rw [applyOverrides_cons] at hy
    rcases ih _ y hy with h1 | h1
    · rcases mem_of_mem_overrideOption h1 with h2 | h2
      · exact Or.inl h2
      · exact Or.inr ⟨kv0, List.mem_cons_self _ _, h2⟩
    · obtain ⟨kv, hkv, hEq⟩ := h1
      exact Or.inr ⟨kv, List.mem_cons_of_mem _ hkv, hEq⟩

theorem wfOpt_keyValue (k v : GoStr) : WFOpt (k ++ '=' :: v) :=
  Or.inr (List.mem_append_right _ (List.mem_cons_self _ _))

theorem wf_nodup_applyOverrides {O : List (GoStr × GoStr)}
    (hOk : ∀ kv ∈ O, '=' ∉ kv.1) :
    ∀ options, (∀ o ∈ options, WFOpt o) → (keysOf options).Nodup →
      (∀ o ∈ applyOverrides options O, WFOpt o) ∧
        (keysOf (applyOverrides options O)).Nodup := by
  induction O with
  | nil => intro options hWF hnd; exact ⟨hWF, hnd⟩
  | cons kv0 O ih =>
    intro options hWF hnd
    obtain ⟨k0, v0⟩ := kv0
    have hk0 : '=' ∉ k0 := hOk _ (List.mem_cons_self _ _)
    have hOk2 : ∀ kv ∈ O, '=' ∉ kv.1 :=
      fun kv h => hOk kv (List.mem_cons_of_mem _ h)
    have hstep : ∀ o ∈ overrideOption options k0 v0, WFOpt o := by
      intro o ho
      rcases mem_of_mem_overrideOption ho with h1 | h1
      · exact hWF o h1
      · exact h1 ▸ wfOpt_keyValue k0 v0
    have hndstep : (keysOf (overrideOption options k0 v0)).Nodup := by
      cases h : isSetB options k0 with
      | true => rw [keysOf_overrideOption_of_set v0 hk0 hWF h]; exact hnd
      | false =>
        rw [overrideOption_of_not_set v0 h, keysOf_append,
          keysOf_singleton_keyValue v0 hk0, List.nodup_append]
        refine ⟨hnd, List.nodup_singleton _, ?_⟩
        intro a ha hb
        rw [List.mem_singleton] at hb
        subst hb
        have := (isSetB_iff_key_mem hk0 hWF).mpr ha
        rw [h] at this
        cases this
    rw [applyOverrides_cons]
    exact ih hOk2 _ hstep hndstep

/-- Non-empty entries of the result string of a sanitizer-options merge,
as read back by splitting on `":"`. -/
def resultSegments (r : GoStr) : List GoStr :=
  (splitChar ':' r).filter (fun o => o ≠ [])

theorem resultSegments_JoinNonEmpty {l : List GoStr} (hc : ∀ y ∈ l, ':' ∉ y) :
    resultSegments (JoinNonEmpty l ':') = l.filter (fun o => o ≠ []) := by
  unfold resultSegments JoinNonEmpty
  cases h : l.filter (fun o => o ≠ []) with
  | nil => rfl
  | cons t ts =>
    have hfree : ∀ x ∈ t :: ts, ':' ∉ x := by
      intro x hx
      have hx2 : x ∈ l.filter (fun o => o ≠ []) := h ▸ hx
      exact hc x (List.mem_filter.mp hx2).1
    rw [splitChar_joinChar (by simp) hfree]
    apply List.filter_eq_self.mpr
    intro a ha
    have ha2 : a ∈ l.filter (fun o => o ≠ []) := h ▸ ha
    exact (List.mem_filter.mp ha2).2

theorem keysOf_map_keyValue {L : List (GoStr × GoStr)}
    (hk : ∀ kv ∈ L, '=' ∉ kv.1) :
    keysOf (L.map (fun kv => kv.1 ++ '=' :: kv.2)) = L.map Prod.fst := by
  induction L with
  | nil => rfl
  | cons kv L ih =>
    rw [List.map_cons, keysOf_cons_ne _ (keyValue_ne_nil _ _),
      optionKey_key_value (hk kv (List.mem_cons_self _ _)),
      ih (fun kv h => hk kv (List.mem_cons_of_mem _ h)), List.map_cons]

theorem keysOf_filter_ne (l : List GoStr) :
    keysOf (l.filter (fun o => o ≠ [])) = keysOf l := by
  unfold keysOf
  rw [List.filter_filter]
  congr 1
  apply List.filter_congr
  intro a _
  simp

theorem colon_not_mem_keyValue {k v : GoStr} (hk : ':' ∉ k) (hv : ':' ∉ v) :
    ':' ∉ k ++ '=' :: v := by
  intro h
  rcases List.mem_append.mp h with h1 | h1
  · exact hk h1
  · rcases List.mem_cons.mp h1 with h2 | h2
    · cases h2
    · exact hv h2

/-- Master specification of the sanitizer-options merge, shared by the
claims about `SetSanitizerOptions` and about the ASan/UBSan environment
composition. For an existing options string whose entries are well formed
with pairwise-distinct keys, and defaults/overrides with distinct,
`=`-free, `:`-free keys and `:`-free values (in an arbitrary iteration
order of the Go maps), the merge result contains `k=O[k]` for every
override, keeps every existing entry whose key is not overridden,
contains `k=D[k]` for every default neither overridden nor already set,
and has pairwise-distinct keys. -/
theorem sanitizerMerge_spec (existing : GoStr) (D O : List (GoStr × GoStr))
    (hWFex : ∀ o ∈ splitChar ':' existing, WFOpt o)
    (hndex : (keysOf (splitChar ':' existing)).Nodup)
    (hDwf : ∀ kv ∈ D, '=' ∉ kv.1 ∧ ':' ∉ kv.1 ∧ ':' ∉ kv.2)
    (hOwf : ∀ kv ∈ O, '=' ∉ kv.1 ∧ ':' ∉ kv.1 ∧ ':' ∉ kv.2)
    (hD : (D.map Prod.fst).Nodup) (hO : (O.map Prod.fst).Nodup) :
    (∀ kv ∈ O, kv.1 ++ '=' :: kv.2 ∈
        resultSegments (SetSanitizerOptions existing D O)) ∧
    (∀ o ∈ splitChar ':' existing, o ≠ [] → optionKey o ∉ O.map Prod.fst →
        o ∈ resultSegments (SetSanitizerOptions existing D O)) ∧
    (∀ kv ∈ D, kv.1 ∉ O.map Prod.fst →
        isSetB (splitChar ':' existing) kv.1 = false →
        kv.1 ++ '=' :: kv.2 ∈
          resultSegments (SetSanitizerOptions existing D O)) ∧
    (keysOf (resultSegments (SetSanitizerOptions existing D O))).Nodup := by
  have hDk : ∀ kv ∈ D, '=' ∉ kv.1 := fun kv h => (hDwf kv h).1
  have hOk : ∀ kv ∈ O, '=' ∉ kv.1 := fun kv h => (hOwf kv h).1
  set segs := splitChar ':' existing with hsegs
  have hl1 : applyDefaults segs D =
      segs ++ (D.filter (fun kv => ! isSetB segs kv.1)).map
        (fun kv => kv.1 ++ '=' :: kv.2) := applyDefaults_eq hDk hD
  set l1 := applyDefaults segs D with hl1def
  -- Well-formedness and key distinctness after the defaults stage.
  have hWF1 : ∀ o ∈ l1, WFOpt o := by
    intro o ho
    rw [hl1] at ho
    rcases List.mem_append.mp ho with h1 | h1
    · exact hWFex o h1
    · obtain ⟨kv, _, hEq⟩ := List.mem_map.mp h1
      exact hEq ▸ wfOpt_keyValue kv.1 kv.2
  have hnd1 : (keysOf l1).Nodup := by
    rw [hl1, keysOf_append,
      keysOf_map_keyValue (fun kv h => hDk kv (List.mem_filter.mp h).1),
      List.nodup_append]
    refine ⟨hndex, ?_, ?_⟩
    · exact List.Nodup.sublist (List.Sublist.map Prod.fst (List.filter_sublist _)) hD
    · intro a ha hb
      obtain ⟨kv, hkv, hEq⟩ := List.mem_map.mp hb
      have hnotset : isSetB segs kv.1 = false := by
        have := (List.mem_filter.mp hkv).2
        simpa using this
      have hmem : kv.1 ∈ keysOf segs := hEq ▸ ha
      have := (isSetB_iff_key_mem (hDk kv (List.mem_filter.mp hkv).1)
        hWFex).mpr hmem
      rw [hnotset] at this
      cases this
  -- Every entry of the final list is colon-free.
  have hcolon : ∀ y ∈ applyOverrides l1 O, ':' ∉ y := by
    intro y hy
    rcases applyOverrides_shape _ y hy with h1 | h1
    · rw [hl1] at h1
      rcases List.mem_append.mp h1 with h2 | h2
      · exact sep_not_mem_of_mem_splitChar h2
      · obtain ⟨kv, hkv, hEq⟩ := List.mem_map.mp h2
        have := hDwf kv (List.mem_filter.mp hkv).1
        exact hEq ▸ colon_not_mem_keyValue this.2.1 this.2.2
    · obtain ⟨kv, hkv, hEq⟩ := h1
      have := hOwf kv hkv
      exact hEq ▸ colon_not_mem_keyValue this.2.1 this.2.2
  have hres : resultSegments (SetSanitizerOptions existing D O) =
      (applyOverrides l1 O).filter (fun o => o ≠ []) := by
    rw [SetSanitizerOptions_eq]
    exact resultSegments_JoinNonEmpty hcolon
  refine ⟨?_, ?_, ?_, ?_⟩
  · intro kv hkv
    rw [hres]
    exact List.mem_filter.mpr
      ⟨applyOverrides_contains hOk hO l1 kv hkv, by simp⟩
  · intro o ho hone hkey
    rw [hres]
    have hmem1 : o ∈ l1 := hl1 ▸ List.mem_append_left _ ho
    have hmem2 : o ∈ applyOverrides l1 O := by
      apply mem_applyOverrides_of_mem hmem1
      intro kv hkv hp
      have := (test_iff_optionKey (hOk kv hkv) (hWFex o ho) hone).mp hp
      exact hkey (this ▸ List.mem_map_of_mem Prod.fst hkv)
    exact List.mem_filter.mpr ⟨hmem2, by simpa using hone⟩
  · intro kv hkv hkeyO hnotset
    rw [hres]
    have hmem1 : kv.1 ++ '=' :: kv.2 ∈ l1 := by
      rw [hl1]
      apply List.mem_append_right
      exact List.mem_map_of_mem _
        (List.mem_filter.mpr ⟨hkv, by simp [hnotset]⟩)
    have hmem2 : kv.1 ++ '=' :: kv.2 ∈ applyOverrides l1 O := by
      apply mem_applyOverrides_of_mem hmem1
      intro kv2 hkv2 hp
      have := (keyEq_test (hOk kv2 hkv2) (hDk kv hkv)).mp hp
      exact hkeyO (this ▸ List.mem_map_of_mem Prod.fst hkv2)
    exact List.mem_filter.mpr ⟨hmem2, by simp⟩
  · rw [hres, keysOf_filter_ne]
    exact (wf_nodup_applyOverrides hOk l1 hWF1 hnd1).2

/-- Claim C1, counterexample: for the existing options string `"a=1:a=2"`,
whose key `a` is already duplicated, and empty defaults and overrides,
`SetSanitizerOptions` returns `"a=1:a=2"`, in which the key `a` occurs
twice — the claim's "no key occurs more than once" fails for this existing
string (and an override for `a` would replace only the first entry). -/
theorem setSanitizerOptions_duplicate_keys_counterexample :
    SetSanitizerOptions "a=1:a=2".toList [] [] = "a=1:a=2".toList ∧
    ¬ (keysOf (resultSegments (SetSanitizerOptions "a=1:a=2".toList [] []))).Nodup := by
  refine ⟨rfl, ?_⟩
  decide

/-- Claim C1 (amended): for every existing sanitizer-options string whose
entries are well-formed `key=value` pairs with pairwise-distinct keys, and
all defaults maps D and overrides maps O (iterated in any order) whose
keys are distinct, `=`-free and `:`-free and whose values are `:`-free,
the result of `SetSanitizerOptions` contains `k=O[k]` for every key of O,
keeps every existing entry whose key is not in O, contains `k=D[k]` for
every key of D neither in O nor already set, and no key occurs more than
once. (The counterexample forces the restriction to existing strings
without duplicate keys.) -/
theorem setSanitizerOptions_merge (existing : GoStr)
    (D O : List (GoStr × GoStr))
    (hWFex : ∀ o ∈ splitChar ':' existing, WFOpt o)
    (hndex : (keysOf (splitChar ':' existing)).Nodup)
    (hDwf : ∀ kv ∈ D, '=' ∉ kv.1 ∧ ':' ∉ kv.1 ∧ ':' ∉ kv.2)
    (hOwf : ∀ kv ∈ O, '=' ∉ kv.1 ∧ ':' ∉ kv.1 ∧ ':' ∉ kv.2)
    (hD : (D.map Prod.fst).Nodup) (hO : (O.map Prod.fst).Nodup) :
    (∀ kv ∈ O, kv.1 ++ '=' :: kv.2 ∈
        resultSegments (SetSanitizerOptions existing D O)) ∧
    (∀ o ∈ splitChar ':' existing, o ≠ [] → optionKey o ∉ O.map Prod.fst →
        o ∈ resultSegments (SetSanitizerOptions existing D O)) ∧
    (∀ kv ∈ D, kv.1 ∉ O.map Prod.fst →
        isSetB (splitChar ':' existing) kv.1 = false →
        kv.1 ++ '=' :: kv.2 ∈
          resultSegments (SetSanitizerOptions existing D O)) ∧
    (keysOf (resultSegments (SetSanitizerOptions existing D O))).Nodup :=
  sanitizerMerge_spec existing D O hWFex hndex hDwf hOwf hD hO

/-- Claim C1 witness: the amended merge theorem applied to the existing
string `"c=0"`, defaults `{d: 1}` and overrides `{o: 2}`. -/
theorem setSanitizerOptions_merge_witness :
    (∀ kv ∈ [("o".toList, "2".toList)], kv.1 ++ '=' :: kv.2 ∈
        resultSegments (SetSanitizerOptions "c=0".toList
          [("d".toList, "1".toList)] [("o".toList, "2".toList)])) ∧
    (∀ o ∈ splitChar ':' "c=0".toList, o ≠ [] →
        optionKey o ∉ [("o".toList, "2".toList)].map Prod.fst →
        o ∈ resultSegments (SetSanitizerOptions "c=0".toList
          [("d".toList, "1".toList)] [("o".toList, "2".toList)])) ∧
    (∀ kv ∈ [("d".toList, "1".toList)],
        kv.1 ∉ [("o".toList, "2".toList)].map Prod.fst →
        isSetB (splitChar ':' "c=0".toList) kv.1 = false →
        kv.1 ++ '=' :: kv.2 ∈
          resultSegments (SetSanitizerOptions "c=0".toList
            [("d".toList, "1".toList)] [("o".toList, "2".toList)])) ∧
    (keysOf (resultSegments (SetSanitizerOptions "c=0".toList
        [("d".toList, "1".toList)] [("o".toList, "2".toList)]))).Nodup :=
  setSanitizerOptions_merge "c=0".toList
    [("d".toList, "1".toList)] [("o".toList, "2".toList)]
    (by decide) (by decide) (by decide) (by decide) (by decide) (by decide)

/-! ## Environment composition and the common ASan/UBSan options
(part_004 lines 134-177) -/

/-- Modelled from the spec: `envutil.Getenv` (util/envutil is not among
the provided sources; §2.A describes env lists with insert/override
semantics). Returns the value of the variable in the env list, or the
empty string when it is absent. -/
def Getenv : List (GoStr × GoStr) → GoStr → GoStr
  | [], _ => []
  | p :: env, key => if p.1 = key then p.2 else Getenv env key

/-- Modelled from the spec: `envutil.Setenv` replaces the value of an
existing variable or appends a new entry (insert/override semantics,
§2.A). -/
def Setenv : List (GoStr × GoStr) → GoStr → GoStr → List (GoStr × GoStr)
  | [], key, value => [(key, value)]
  | p :: env, key, value =>
    if p.1 = key then (key, value) :: env else p :: Setenv env key value

/-- Exit code when a sanitizer reports a bug (part_004 line 48). -/
def SanitizerErrorExitCode : Nat := 78

/-- Translation of `defaultSanitizerOptions` (part_004 lines 82-90): only
the `color` key, whose value depends on whether stderr is a terminal;
the value is a parameter of the model. -/
def defaultSanitizerOptions (colorValue : GoStr) : List (GoStr × GoStr) :=
  [("color".toList, colorValue)]

/-- Translation of `SetASANOptions` (part_004 lines 134-138). -/
def SetASANOptions (env : List (GoStr × GoStr))
    (defaults overrides : List (GoStr × GoStr)) : List (GoStr × GoStr) :=
  Setenv env "ASAN_OPTIONS".toList
    (SetSanitizerOptions (Getenv env "ASAN_OPTIONS".toList) defaults overrides)

/-- Translation of `SetCommonASANOptions` (part_004 lines 140-156):
defaults are `defaultSanitizerOptions`, overrides are
`exitcode=strconv.Itoa(SanitizerErrorExitCode)` (`"78"`) and
`log_path=stderr`, given here in source-literal order (Go map iteration
order is unspecified; the proved facts do not depend on it). -/
def SetCommonASANOptions (colorValue : GoStr)
    (env : List (GoStr × GoStr)) : List (GoStr × GoStr) :=
  SetASANOptions env (defaultSanitizerOptions colorValue)
    [("exitcode".toList, "78".toList), ("log_path".toList, "stderr".toList)]

/-- Translation of `SetCommonUBSANOptions` (part_004 lines 158-177):
defaults are `defaultSanitizerOptions` extended with
`print_stacktrace=1` (`maps.Clone` + `maps.Copy`), and the only override
is `log_path=stderr` — in particular no `exitcode` override. -/
def SetCommonUBSANOptions (colorValue : GoStr)
    (env : List (GoStr × GoStr)) : List (GoStr × GoStr) :=
  Setenv env "UBSAN_OPTIONS".toList
    (SetSanitizerOptions (Getenv env "UBSAN_OPTIONS".toList)
      (defaultSanitizerOptions colorValue ++
        [("print_stacktrace".toList, "1".toList)])
      [("log_path".toList, "stderr".toList)])

theorem Getenv_Setenv_self (env : List (GoStr × GoStr)) (k v : GoStr) :
    Getenv (Setenv env k v) k = v := by
  induction env with
  | nil => simp [Setenv, Getenv]
  | cons p env ih =>
    unfold Setenv
    by_cases hp : p.1 = k
    · rw [if_pos hp]
      simp [Getenv]
    · rw [if_neg hp]
      unfold Getenv
      rw [if_neg hp]
      exact ih

theorem Getenv_Setenv_ne (env : List (GoStr × GoStr)) {k k2 : GoStr}
    (v : GoStr) (hne : k ≠ k2) : Getenv (Setenv env k v) k2 = Getenv env k2 := by
  induction env with
  | nil => simp [Setenv, Getenv, if_neg hne]
  | cons p env ih =>
    unfold Setenv
    by_cases hp : p.1 = k
    · rw [if_pos hp]
      unfold Getenv
      rw [if_neg hne, if_neg (hp ▸ hne)]
    · rw [if_neg hp]
      unfold Getenv
      by_cases hp2 : p.1 = k2
      · rw [if_pos hp2, if_pos hp2]
      · rw [if_neg hp2, if_neg hp2]
        exact ih

/-- Claim C5, counterexample: starting from the empty environment, after
`SetCommonASANOptions` followed by `SetCommonUBSANOptions` (with color
value `"never"`), the `UBSAN_OPTIONS` variable does not contain
`exitcode=78`: the UBSan overrides map contains only `log_path`, so the
claim's "both ... contain exitcode=78" fails. -/
theorem ubsanOptions_missing_exitcode_counterexample :
    "exitcode".toList ++ '=' :: "78".toList ∉
      resultSegments (Getenv
        (SetCommonUBSANOptions "never".toList
          (SetCommonASANOptions "never".toList []))
        "UBSAN_OPTIONS".toList) := by
  decide

/-- Claim C5 (amended): after `SetCommonASANOptions` and
`SetCommonUBSANOptions`, for every input environment whose existing
`ASAN_OPTIONS` and `UBSAN_OPTIONS` strings are well formed without
duplicate keys: `ASAN_OPTIONS` contains `exitcode=78` and
`log_path=stderr` regardless of pre-existing values (replace semantics);
`UBSAN_OPTIONS` contains `log_path=stderr` (replace semantics) but
`exitcode=78` only when already present in the input; UBSan's
`print_stacktrace=1` is only set if not already present, and likewise the
`color` default, whose pre-existing entry is kept. -/
theorem sanitizerEnv_mandatory_options (colorValue : GoStr)
    (env : List (GoStr × GoStr)) (hcv : ':' ∉ colorValue)
    (hWFa : ∀ o ∈ splitChar ':' (Getenv env "ASAN_OPTIONS".toList), WFOpt o)
    (hnda : (keysOf (splitChar ':' (Getenv env "ASAN_OPTIONS".toList))).Nodup)
    (hWFu : ∀ o ∈ splitChar ':' (Getenv env "UBSAN_OPTIONS".toList), WFOpt o)
    (hndu : (keysOf (splitChar ':' (Getenv env "UBSAN_OPTIONS".toList))).Nodup) :
    ("exitcode".toList ++ '=' :: "78".toList ∈
        resultSegments (Getenv (SetCommonUBSANOptions colorValue
          (SetCommonASANOptions colorValue env)) "ASAN_OPTIONS".toList)) ∧
    ("log_path".toList ++ '=' :: "stderr".toList ∈
        resultSegments (Getenv (SetCommonUBSANOptions colorValue
          (SetCommonASANOptions colorValue env)) "ASAN_OPTIONS".toList)) ∧
    ("log_path".toList ++ '=' :: "stderr".toList ∈
        resultSegments (Getenv (SetCommonUBSANOptions colorValue
          (SetCommonASANOptions colorValue env)) "UBSAN_OPTIONS".toList)) ∧
    (isSetB (splitChar ':' (Getenv env "UBSAN_OPTIONS".toList))
        "print_stacktrace".toList = false →
      "print_stacktrace".toList ++ '=' :: "1".toList ∈
        resultSegments (Getenv (SetCommonUBSANOptions colorValue
          (SetCommonASANOptions colorValue env)) "UBSAN_OPTIONS".toList)) ∧
    (isSetB (splitChar ':' (Getenv env "ASAN_OPTIONS".toList))
        "color".toList = false →
      "color".toList ++ '=' :: colorValue ∈
        resultSegments (Getenv (SetCommonUBSANOptions colorValue
          (SetCommonASANOptions colorValue env)) "ASAN_OPTIONS".toList)) ∧
    (∀ o ∈ splitChar ':' (Getenv env "ASAN_OPTIONS".toList), o ≠ [] →
      optionKey o = "color".toList →
      o ∈ resultSegments (Getenv (SetCommonUBSANOptions colorValue
        (SetCommonASANOptions colorValue env)) "ASAN_OPTIONS".toList)) := by
  have hku : ("UBSAN_OPTIONS".toList : GoStr) ≠ "ASAN_OPTIONS".toList := by decide
  have hka : ("ASAN_OPTIONS".toList : GoStr) ≠ "UBSAN_OPTIONS".toList := by decide
  -- The UBSan step does not modify ASAN_OPTIONS, and vice versa.
  have hgetA : Getenv (SetCommonUBSANOptions colorValue
      (SetCommonASANOptions colorValue env)) "ASAN_OPTIONS".toList =
      SetSanitizerOptions (Getenv env "ASAN_OPTIONS".toList)
        (defaultSanitizerOptions colorValue)
        [("exitcode".toList, "78".toList),
          ("log_path".toList, "stderr".toList)] := by
    unfold SetCommonUBSANOptions
    rw [Getenv_Setenv_ne _ _ hku]
    unfold SetCommonASANOptions SetASANOptions
    rw [Getenv_Setenv_self]
  have hgetU : Getenv (SetCommonUBSANOptions colorValue
      (SetCommonASANOptions colorValue env)) "UBSAN_OPTIONS".toList =
      SetSanitizerOptions (Getenv env "UBSAN_OPTIONS".toList)
        (defaultSanitizerOptions colorValue ++
          [("print_stacktrace".toList, "1".toList)])
        [("log_path".toList, "stderr".toList)] := by
    unfold SetCommonUBSANOptions
    rw [Getenv_Setenv_self]
    unfold SetCommonASANOptions SetASANOptions
    rw [Getenv_Setenv_ne _ _ hka]
  have hDwfA : ∀ kv ∈ defaultSanitizerOptions colorValue,
      '=' ∉ kv.1 ∧ ':' ∉ kv.1 ∧ ':' ∉ kv.2 := by
    intro kv hkv
    rcases List.mem_singleton.mp hkv with rfl
    exact ⟨show '=' ∉ "color".toList by decide,
      show ':' ∉ "color".toList by decide, hcv⟩
  have hDwfU : ∀ kv ∈ defaultSanitizerOptions colorValue ++
      [("print_stacktrace".toList, "1".toList)],
      '=' ∉ kv.1 ∧ ':' ∉ kv.1 ∧ ':' ∉ kv.2 := by
    intro kv hkv
    rcases List.mem_append.mp hkv with h | h
    · exact hDwfA kv h
    · rcases List.mem_singleton.mp h with rfl
      exact ⟨by decide, by decide, by decide⟩
  have specA := sanitizerMerge_spec (Getenv env "ASAN_OPTIONS".toList)
    (defaultSanitizerOptions colorValue)
    [("exitcode".toList, "78".toList), ("log_path".toList, "stderr".toList)]
    hWFa hnda hDwfA (by decide)
    (by simp [defaultSanitizerOptions]) (by decide)
  have specU := sanitizerMerge_spec (Getenv env "UBSAN_OPTIONS".toList)
    (defaultSanitizerOptions colorValue ++
      [("print_stacktrace".toList, "1".toList)])
    [("log_path".toList, "stderr".toList)]
    hWFu hndu hDwfU (by decide)
    (by
      simp only [defaultSanitizerOptions, List.cons_append, List.nil_append,
        List.map_cons, List.map_nil]
      decide)
    (by decide)
  rw [hgetA, hgetU]
  refine ⟨?_, ?_, ?_, ?_, ?_, ?_⟩
  · exact specA.1 ("exitcode".toList, "78".toList) (by simp)
  · exact specA.1 ("log_path".toList, "stderr".toList) (by simp)
  · exact specU.1 ("log_path".toList, "stderr".toList) (by simp)
  · intro hnotset
    exact specU.2.2.1 ("print_stacktrace".toList, "1".toList)
      (by simp) (by decide) hnotset
  · intro hnotset
    exact specA.2.2.1 ("color".toList, colorValue)
      (by simp [defaultSanitizerOptions])
      (show "color".toList ∉ [("exitcode".toList, "78".toList),
        ("log_path".toList, "stderr".toList)].map Prod.fst by decide) hnotset
  · intro o ho hone hkey
    exact specA.2.1 o ho hone (by rw [hkey]; decide)

/-- Claim C5 witness: the amended theorem applied to the environment
`[ASAN_OPTIONS=exitcode=5]` with color value `"never"`; the first
conjunct shows the pre-existing `exitcode=5` replaced by `exitcode=78`. -/
theorem sanitizerEnv_mandatory_options_witness :
    "exitcode".toList ++ '=' :: "78".toList ∈
      resultSegments (Getenv (SetCommonUBSANOptions "never".toList
        (SetCommonASANOptions "never".toList
          [("ASAN_OPTIONS".toList, "exitcode=5".toList)]))
        "ASAN_OPTIONS".toList) :=
  (sanitizerEnv_mandatory_options "never".toList
    [("ASAN_OPTIONS".toList, "exitcode=5".toList)]
    (by decide) (by decide) (by decide) (by decide) (by decide)).1

/-! ## Minijail bindings environment variable (part_003 lines 110-124 and
316-326) -/

/-- Translation of `AddMinijailBindingToEnv` (part_003 lines 110-124):
append the serialized binding to `CIFUZZ_MINIJAIL_BINDINGS`, separated by
`":"` when the variable already has a value. -/
def AddMinijailBindingToEnv (env : List (GoStr × GoStr)) (binding : MJBinding) :
    List (GoStr × GoStr) :=
  let bindings := Getenv env "CIFUZZ_MINIJAIL_BINDINGS".toList
  let bindings :=
    if bindings = [] then bindingString binding
    else bindings ++ ':' :: bindingString binding
  Setenv env "CIFUZZ_MINIJAIL_BINDINGS".toList bindings

/-- Translation of the additional-bindings parsing loop of the legacy
`NewMinijail` (part_003 lines 316-326): split the variable on `":"`, skip
empty entries, parse each with `BindingFromString`, propagating errors. -/
def parseBindingsList : List GoStr → Except String (List MJBinding)
  | [] => .ok []
  | s :: rest =>
    if s = [] then parseBindingsList rest
    else do
      let b ← BindingFromString s
      let bs ← parseBindingsList rest
      pure (b :: bs)

/-- The value of `CIFUZZ_MINIJAIL_BINDINGS` as parsed by `NewMinijail`. -/
def parseBindingsEnvVar (s : GoStr) : Except String (List MJBinding) :=
  parseBindingsList (splitChar ':' s)

theorem bindingString_ne_nil {b : MJBinding} (hs : b.Source ≠ []) :
    bindingString b ≠ [] := by
  unfold bindingString
  split
  · simp
  · split
    · simp
    · split
      · simp
      · exact hs

theorem colon_not_mem_comma_fields {a b : GoStr} (w : Char) (ha : ':' ∉ a)
    (hb : ':' ∉ b) (hw : w ≠ ':') : ':' ∉ a ++ ',' :: (b ++ [',', w]) := by
  intro h
  rcases List.mem_append.mp h with h1 | h1
  · exact ha h1
  · rcases List.mem_cons.mp h1 with h2 | h2
    · cases h2
    · rcases List.mem_append.mp h2 with h3 | h3
      · exact hb h3
      · rcases List.mem_cons.mp h3 with h4 | h4
        · cases h4
        · exact hw (List.mem_singleton.mp h4).symm

theorem colon_not_mem_bindingString {b : MJBinding} (hs : ':' ∉ b.Source)
    (ht : ':' ∉ b.Target) : ':' ∉ bindingString b := by
  have htgt : ':' ∉ effectiveTarget b := by
    unfold effectiveTarget
    split <;> assumption
  unfold bindingString
  split
  · exact colon_not_mem_comma_fields '1' hs htgt (by decide)
  · split
    · exact colon_not_mem_comma_fields '0' hs htgt (by decide)
    · split
      · intro h
        rcases List.mem_append.mp h with h1 | h1
        · exact hs h1
        · rcases List.mem_cons.mp h1 with h2 | h2
          · cases h2
          · exact htgt h2
      · exact hs

theorem joinChar_ne_nil {sep : Char} {l : List GoStr} (hne : l ≠ [])
    (h : ∀ x ∈ l, x ≠ []) : joinChar sep l ≠ [] := by
  cases l with
  | nil => exact absurd rfl hne
  | cons a rest =>
    cases rest with
    | nil => exact h a (List.mem_cons_self _ _)
    | cons b rest2 =>
      unfold joinChar
      intro hcontra
      rcases List.append_eq_nil.mp hcontra with ⟨_, h2⟩
      cases h2

theorem joinChar_append_singleton {sep : Char} {l : List GoStr} (hne : l ≠ [])
    (x : GoStr) : joinChar sep (l ++ [x]) = joinChar sep l ++ sep :: x := by
  induction l with
  | nil => exact absurd rfl hne
  | cons a rest ih =>
    cases rest with
    | nil => rfl
    | cons b rest2 =>
      rw [show joinChar sep ((a :: b :: rest2) ++ [x]) =
          a ++ sep :: joinChar sep ((b :: rest2) ++ [x]) from rfl,
        ih (by simp),
        show joinChar sep (a :: b :: rest2) =
          a ++ sep :: joinChar sep (b :: rest2) from rfl]
      simp [List.append_assoc]

theorem getenv_addBinding (env : List (GoStr × GoStr)) (b : MJBinding) :
    Getenv (AddMinijailBindingToEnv env b) "CIFUZZ_MINIJAIL_BINDINGS".toList =
      if Getenv env "CIFUZZ_MINIJAIL_BINDINGS".toList = []
      then bindingString b
      else Getenv env "CIFUZZ_MINIJAIL_BINDINGS".toList ++ ':' :: bindingString b := by
  unfold AddMinijailBindingToEnv
  rw [Getenv_Setenv_self]

theorem addBindings_fold_gen (bs : List MJBinding)
    (hbs : ∀ b ∈ bs, b.Source ≠ []) :
    ∀ (env : List (GoStr × GoStr)) (pre : List GoStr), pre ≠ [] →
      (∀ x ∈ pre, x ≠ []) →
      Getenv env "CIFUZZ_MINIJAIL_BINDINGS".toList = joinChar ':' pre →
      Getenv (bs.foldl AddMinijailBindingToEnv env)
          "CIFUZZ_MINIJAIL_BINDINGS".toList =
        joinChar ':' (pre ++ bs.map bindingString) := by
  induction bs with
  | nil =>
    intro env pre _ _ hval
    simpa using hval
  | cons b rest ih =>
    intro env pre hpre hprene hval
    have hbnn : bindingString b ≠ [] :=
      bindingString_ne_nil (hbs b (List.mem_cons_self _ _))
    have hstep : Getenv (AddMinijailBindingToEnv env b)
        "CIFUZZ_MINIJAIL_BINDINGS".toList =
        joinChar ':' (pre ++ [bindingString b]) := by
      rw [getenv_addBinding, hval,
        if_neg (joinChar_ne_nil hpre hprene),
        joinChar_append_singleton hpre]
    have := ih (fun x hx => hbs x (List.mem_cons_of_mem _ hx))
      (AddMinijailBindingToEnv env b) (pre ++ [bindingString b])
      (by simp) ?_ hstep
    · rw [List.foldl_cons, this, List.append_assoc]
      rfl
    · intro x hx
      rcases List.mem_append.mp hx with h1 | h1
      · exact hprene x h1
      · exact (List.mem_singleton.mp h1) ▸ hbnn

theorem parseBindingsList_map (bs : List MJBinding)
    (hb : ∀ b ∈ bs, b.Source ≠ [] ∧ ',' ∉ b.Source ∧ ',' ∉ b.Target ∧
      (b.Writable = 0 ∨ b.Writable = 1)) :
    parseBindingsList (bs.map bindingString) =
      .ok (bs.map (fun b => ⟨b.Source, effectiveTarget b, b.Writable⟩)) := by
  induction bs with
  | nil => rfl
  | cons b rest ih =>
    obtain ⟨hs, hcs, hct, hw⟩ := hb b (List.mem_cons_self _ _)
    rw [List.map_cons]
    unfold parseBindingsList
    rw [if_neg (by simpa using bindingString_ne_nil hs)]
    rw [bindingString_roundTrip b hcs hct hw,
      ih (fun x hx => hb x (List.mem_cons_of_mem _ hx))]
    rfl

/-- Claim C10, counterexample: adding the binding with source `"a,b"`
(whose serialized form `"a,b,a,b,0"` contains no `":"`) to an empty
environment and parsing the resulting `CIFUZZ_MINIJAIL_BINDINGS` value
fails with the `strconv.Atoi` error rather than recovering the binding. -/
theorem minijailBindings_comma_not_recovered :
    parseBindingsEnvVar (Getenv
      (AddMinijailBindingToEnv [] ⟨"a,b".toList, [], 0⟩)
      "CIFUZZ_MINIJAIL_BINDINGS".toList) = .error "Atoi" := by
  rfl

/-- Claim C10 (amended): for every environment in which
`CIFUZZ_MINIJAIL_BINDINGS` is unset, and every sequence of bindings with
non-empty sources whose sources and targets contain neither `","` nor
`":"` and whose writable option is ReadOnly or ReadWrite, the repeated
application of `AddMinijailBindingToEnv` stores the `":"`-joined
`String()` forms in insertion order, and `NewMinijail`'s parsing of the
variable recovers exactly the added bindings with empty targets replaced
by the source. -/
theorem minijailBindings_env_roundTrip (env : List (GoStr × GoStr))
    (bs : List MJBinding)
    (h0 : Getenv env "CIFUZZ_MINIJAIL_BINDINGS".toList = [])
    (hb : ∀ b ∈ bs, b.Source ≠ [] ∧ ',' ∉ b.Source ∧ ',' ∉ b.Target ∧
      ':' ∉ b.Source ∧ ':' ∉ b.Target ∧ (b.Writable = 0 ∨ b.Writable = 1)) :
    Getenv (bs.foldl AddMinijailBindingToEnv env)
        "CIFUZZ_MINIJAIL_BINDINGS".toList =
      joinChar ':' (bs.map bindingString) ∧
    parseBindingsEnvVar (Getenv (bs.foldl AddMinijailBindingToEnv env)
        "CIFUZZ_MINIJAIL_BINDINGS".toList) =
      .ok (bs.map (fun b => ⟨b.Source, effectiveTarget b, b.Writable⟩)) := by
  have hval : Getenv (bs.foldl AddMinijailBindingToEnv env)
      "CIFUZZ_MINIJAIL_BINDINGS".toList = joinChar ':' (bs.map bindingString) := by
    cases bs with
    | nil => simpa using h0
    | cons b rest =>
      have hbnn : bindingString b ≠ [] :=
        bindingString_ne_nil (hb b (List.mem_cons_self _ _)).1
      have hstep : Getenv (AddMinijailBindingToEnv env b)
          "CIFUZZ_MINIJAIL_BINDINGS".toList = joinChar ':' [bindingString b] := by
        rw [getenv_addBinding, if_pos h0]
        rfl
      have := addBindings_fold_gen rest
        (fun x hx => (hb x (List.mem_cons_of_mem _ hx)).1)
        (AddMinijailBindingToEnv env b) [bindingString b]
        (by simp) (by simpa using hbnn) hstep
      rw [List.foldl_cons, this]
      rfl
  refine ⟨hval, ?_⟩
  rw [hval]
  unfold parseBindingsEnvVar
  cases hbs : bs with
  | nil => rfl
  | cons b rest =>
    have hmapne : bs.map bindingString ≠ [] := by rw [hbs]; simp
    have hfree : ∀ x ∈ bs.map bindingString, ':' ∉ x := by
      intro x hx
      obtain ⟨b2, hb2, hEq⟩ := List.mem_map.mp hx
      have h2 := hb b2 hb2
      exact hEq ▸ colon_not_mem_bindingString h2.2.2.2.1 h2.2.2.2.2.1
    rw [← hbs, splitChar_joinChar hmapne hfree]
    exact parseBindingsList_map bs
      (fun x hx => ⟨(hb x hx).1, (hb x hx).2.1, (hb x hx).2.2.1,
        (hb x hx).2.2.2.2.2⟩)

/-- Claim C10 witness: the round trip applied to the single read-only
binding with source `"/a"` added to the empty environment. -/
theorem minijailBindings_env_roundTrip_witness :
    Getenv ([(⟨"/a".toList, [], 0⟩ : MJBinding)].foldl AddMinijailBindingToEnv [])
        "CIFUZZ_MINIJAIL_BINDINGS".toList =
      joinChar ':' ([(⟨"/a".toList, [], 0⟩ : MJBinding)].map bindingString) ∧
    parseBindingsEnvVar (Getenv
        ([(⟨"/a".toList, [], 0⟩ : MJBinding)].foldl AddMinijailBindingToEnv [])
        "CIFUZZ_MINIJAIL_BINDINGS".toList) =
      .ok ([(⟨"/a".toList, [], 0⟩ : MJBinding)].map
        (fun b => ⟨b.Source, effectiveTarget b, b.Writable⟩)) :=
  minijailBindings_env_roundTrip [] [⟨"/a".toList, [], 0⟩] rfl (by decide)

/-! ## executeRunner signal handling (internal/cmd/run/run.go, lines
659-705)

`executeRunner` starts two goroutines in an errgroup: a signal handler
that selects between the errgroup context's Done channel and the buffered
signal channel registered with `signal.Notify`, and the runner goroutine,
which cancels the signal-handler context (via `defer cancelSignalHandler`)
when `runner.Run` returns. The embedding is a step function over an
explicit schedule of events; a Go `select` with several ready cases picks
one pseudo-randomly, which the schedule's choice of
`handlerTakeSignal`/`handlerTakeDone` models. `errgroup.Wait` returns the
first non-nil error in goroutine-completion order (`waitErr`); the
handler additionally records its error in the shared `signalErr`
variable (run.go lines 666-677). -/

inductive CmdError where
  /-- `cmdutils.NewSignalError` for the given signal number. -/
  | signalError (sig : Nat)
  /-- A `cmdutils.ExecError` (e.g. the "Unexpected exit code" error). -/
  | execError (exitCode : Nat)
  /-- Any other error. -/
  | otherError (msg : String)
  deriving DecidableEq, Repr

/-- An error as returned from `executeRunner`; `silent` records a
`cmdutils.WrapSilentError` wrapping. -/
structure WrappedError where
  silent : Bool
  err : CmdError
  deriving DecidableEq, Repr

structure RunnerState where
  /-- A signal sits in the buffered channel registered by `signal.Notify`. -/
  sigDelivered : Bool
  /-- The number of the delivered signal. -/
  pendingSig : Nat
  /-- The handler's select committed to the signal channel. -/
  sigConsumed : Bool
  /-- The shared `signalErr` variable (run.go line 666). -/
  signalErr : Option CmdError
  /-- The signal-handler goroutine returned. -/
  handlerDone : Bool
  /-- The runner goroutine returned. -/
  runnerDone : Bool
  /-- The signal-handler context was cancelled (`defer cancelSignalHandler`,
  run.go line 681, or errgroup cancellation). -/
  ctxCanceled : Bool
  /-- The first non-nil goroutine error in completion order, as returned
  by `errgroup.Wait`. -/
  waitErr : Option CmdError
  deriving DecidableEq, Repr

def initState : RunnerState :=
  ⟨false, 0, false, none, false, false, false, none⟩

inductive RunnerEvent where
  /-- The OS delivers a termination signal to the buffered channel. -/
  | deliverSignal (sig : Nat)
  /-- `runner.Run` returns with the given error and the deferred
  `cancelSignalHandler` runs (run.go lines 680-683). -/
  | runnerFinish (e : Option CmdError)
  /-- The handler's select takes the `case s := <-sigs` branch: it sets
  `signalErr`, calls `runner.Cleanup` and returns `signalErr`
  (run.go lines 671-675). -/
  | handlerTakeSignal
  /-- The handler's select takes the `case <-routinesCtx.Done()` branch
  and returns nil (run.go lines 669-670). -/
  | handlerTakeDone
  deriving DecidableEq, Repr

/-- One step of the interleaving. An event whose precondition does not
hold (e.g. a select branch whose channel is not ready) leaves the state
unchanged, so every list of events denotes a valid interleaving. -/
def runnerStep (s : RunnerState) : RunnerEvent → RunnerState
  | .deliverSignal sig =>
    if s.sigDelivered then s
    else { s with sigDelivered := true, pendingSig := sig }
  | .runnerFinish e =>
    if s.runnerDone then s
    else { s with runnerDone := true, ctxCanceled := true,
                  waitErr := if s.waitErr.isNone then e else s.waitErr }
  | .handlerTakeSignal =>
    if s.handlerDone ∨ ¬ s.sigDelivered then s
    else { s with handlerDone := true, sigConsumed := true,
                  signalErr := some (.signalError s.pendingSig),
                  waitErr := if s.waitErr.isNone
                             then some (.signalError s.pendingSig)
                             else s.waitErr }
  | .handlerTakeDone =>
    if s.handlerDone ∨ ¬ s.ctxCanceled then s
    else { s with handlerDone := true }

/-- The state after an interleaving of `executeRunner`'s goroutines. -/
def runExec (events : List RunnerEvent) : RunnerState :=
  events.foldl runnerStep initState

/-- Translation of the error selection at the end of `executeRunner`
(run.go lines 685-704): a non-nil `signalErr` is wrapped silently and
returned; otherwise an `ExecError` from `errgroup.Wait` is wrapped
silently; otherwise the wait error is returned as-is. -/
def executeRunnerResult (s : RunnerState) : Option WrappedError :=
  match s.signalErr with
  | some e => some ⟨true, e⟩
  | none =>
    match s.waitErr with
    | some (CmdError.execError c) => some ⟨true, .execError c⟩
    | some e => some ⟨false, e⟩
    | none => none

/-- The error returned by `executeRunner` for a given interleaving. -/
def executeRunner (events : List RunnerEvent) : Option WrappedError :=
  executeRunnerResult (runExec events)

/-- Claim C3, counterexample: in the interleaving where SIGINT (2) is
delivered to the buffered signal channel, then the runner finishes with
an "Unexpected exit code" ExecError (cancelling the handler context), and
the handler's select — both of its channels now being ready — takes the
context-done branch (Go selects a ready case pseudo-randomly), both
goroutines complete, yet `executeRunner` returns the wrapped ExecError
and not a SignalError, although the signal was received before the runner
goroutine completed. -/
theorem executeRunner_signal_before_finish_execError :
    (runExec [.deliverSignal 2, .runnerFinish (some (.execError 1)),
        .handlerTakeDone]).handlerDone = true ∧
    (runExec [.deliverSignal 2, .runnerFinish (some (.execError 1)),
        .handlerTakeDone]).runnerDone = true ∧
    executeRunner [.deliverSignal 2, .runnerFinish (some (.execError 1)),
        .handlerTakeDone] = some ⟨true, .execError 1⟩ := by
  refine ⟨rfl, rfl, rfl⟩

/-- Claim C3 (amended): for every interleaving of the signal-handler and
runner goroutines in which the handler consumes the delivered termination
signal (its select commits to the signal channel before the handler
returns), the error returned by `executeRunner` wraps the SignalError
created for that signal and never the ExitError/ExecError from the child.
A signal that is merely delivered before the runner completes need not be
consumed: when the runner finishes concurrently, the select may take the
context-done branch (see the counterexample). -/
theorem executeRunner_consumed_signal_shadows (events : List RunnerEvent)
    (h : (runExec events).sigConsumed = true) :
    ∃ sig, executeRunner events = some ⟨true, .signalError sig⟩ := by
  suffices hinv : ∀ (evs : List RunnerEvent) (s : RunnerState),
      (s.sigConsumed = true → ∃ g, s.signalErr = some (.signalError g)) →
      (evs.foldl runnerStep s).sigConsumed = true →
        ∃ g, (evs.foldl runnerStep s).signalErr = some (.signalError g) by
    obtain ⟨g, hg⟩ := hinv events initState (fun hc => by cases hc) h
    refine ⟨g, ?_⟩
    have hsig : (runExec events).signalErr = some (.signalError g) := hg
    unfold executeRunner executeRunnerResult
    rw [hsig]
  intro evs
  induction evs with
  | nil => intro s hs; exact hs
  | cons e evs ih =>
    intro s hs
    rw [List.foldl_cons]
    apply ih
    cases e with
    | deliverSignal sig =>
      simp only [runnerStep]
      split
      · exact hs
      · exact hs
    | runnerFinish e2 =>
      simp only [runnerStep]
      split
      · exact hs
      · exact hs
    | handlerTakeSignal =>
      simp only [runnerStep]
      split
      · exact hs
      · exact fun _ => ⟨s.pendingSig, rfl⟩
    | handlerTakeDone =>
      simp only [runnerStep]
      split
      · exact hs
      · exact hs

/-- Claim C3 witness: the shadowing theorem applied to the interleaving
in which the handler consumes SIGINT (2) before the runner finishes with
an ExecError. -/
theorem executeRunner_consumed_signal_shadows_witness :
    ∃ sig, executeRunner [.deliverSignal 2, .handlerTakeSignal,
        .runnerFinish (some (.execError 1))] =
      some ⟨true, .signalError sig⟩ :=
  executeRunner_consumed_signal_shadows
    [.deliverSignal 2, .handlerTakeSignal, .runnerFinish (some (.execError 1))]
    (by decide)

/-! ## NewMinijail binding composition, config-file variant (part_002,
lines 235-299) -/

/-- The `Binding` type of the config-file minijail variant (part_002
lines 78-82), with `ReadOnly = 0` and `ReadWrite = 1`. -/
structure SBinding where
  Source : String
  Target : String
  Writable : Nat
  deriving DecidableEq, Repr

/-- One entry of `os.ReadDir("/tmp")` as inspected by the loop in
part_002 lines 254-268: its name, whether it is a directory, whether
`entry.Info()` succeeds, and whether `os.SameFile` identifies it with the
freshly created chroot directory. -/
structure TmpDirEntry where
  name : String
  isDir : Bool
  accessible : Bool
  isChrootDir : Bool
  deriving DecidableEq, Repr

/-- Translation of `defaultBindings` (part_002 lines 147-155). -/
def confDefaultBindings : List SBinding :=
  [⟨"/dev/null", "", 1⟩, ⟨"/dev/urandom", "", 1⟩]

/-- Translation of the `/tmp` subdirectory loop (part_002 lines 254-268):
non-directories, entries whose `Info()` fails, and the chroot directory
itself are skipped; every other entry contributes a read-only binding
whose source is `"/tmp" + entry.Name()` (string concatenation, with no
path separator). -/
def tmpSubdirBindings (entries : List TmpDirEntry) : List SBinding :=
  entries.foldl (fun bindings e =>
    if ¬ e.isDir then bindings
    else if ¬ e.accessible then bindings
    else if e.isChrootDir then bindings
    else bindings ++ [⟨"/tmp" ++ e.name, "", 0⟩]) []

/-- Translation of the binding composition of the config-file
`NewMinijail` (part_002 lines 235-299): `/tmp` subdirectories, then
`opts.Bindings`, then `defaultBindings`, then a read-write binding for
`opts.OutputDir` when it is non-empty, then the working directory
read-write, the symlink-resolved executable, and the process wrapper. -/
def composeBindings (entries : List TmpDirEntry) (optsBindings : List SBinding)
    (outputDir workdir execPath wrapperPath : String) : List SBinding :=
  ((((if outputDir ≠ ""
      then (tmpSubdirBindings entries ++ optsBindings ++ confDefaultBindings) ++
        [⟨outputDir, "", 1⟩]
      else tmpSubdirBindings entries ++ optsBindings ++ confDefaultBindings)
    ++ [⟨workdir, "", 1⟩])
    ++ [⟨execPath, "", 0⟩])
    ++ [⟨wrapperPath, "", 0⟩])

/-- Modelled from the spec: the binding order stated in §4.2 and claim C6
— subdirectories of host `/tmp` (one read-only binding each, whose source
is the subdirectory's path, skipping the chroot directory), caller
bindings, `/dev/null` and `/dev/urandom` read-write, the working
directory read-write, the target executable, the process wrapper; no
output-directory binding is mentioned. -/
def specComposeBindings (entries : List TmpDirEntry)
    (optsBindings : List SBinding) (workdir execPath wrapperPath : String) :
    List SBinding :=
  (entries.filterMap fun e =>
    if e.isDir ∧ ¬ e.isChrootDir then some ⟨"/tmp/" ++ e.name, "", 0⟩ else none)
  ++ optsBindings ++ confDefaultBindings
  ++ [⟨workdir, "", 1⟩, ⟨execPath, "", 0⟩, ⟨wrapperPath, "", 0⟩]

/-- Claim C6, counterexample: with one subdirectory `foo` of host `/tmp`
and a non-empty output directory, the composed bindings differ from the
claimed order in two places: the `/tmp` subdirectory binding's source is
`"/tmpfoo"` (the code concatenates without a path separator) instead of
`"/tmp/foo"`, and a read-write binding for `opts.OutputDir` is inserted
between the defaults and the working directory. -/
theorem newMinijail_bindings_counterexample :
    composeBindings [⟨"foo", true, true, false⟩] [] "/out" "/wd" "/exe" "/pw" ≠
      specComposeBindings [⟨"foo", true, true, false⟩] [] "/wd" "/exe" "/pw" ∧
    composeBindings [⟨"foo", true, true, false⟩] [] "/out" "/wd" "/exe" "/pw" =
      [⟨"/tmpfoo", "", 0⟩, ⟨"/dev/null", "", 1⟩, ⟨"/dev/urandom", "", 1⟩,
        ⟨"/out", "", 1⟩, ⟨"/wd", "", 1⟩, ⟨"/exe", "", 0⟩, ⟨"/pw", "", 0⟩] := by
  refine ⟨by decide, rfl⟩

/-- Claim C6 (amended): `NewMinijail` (config-file variant) composes the
bindings in the order: one read-only binding per accessible subdirectory
of host `/tmp` — with source `"/tmp" + name`, concatenated without a path
separator — skipping the chroot directory, then the caller-supplied
bindings, then `/dev/null` and `/dev/urandom` read-write, then a
read-write binding for the output directory when it is non-empty, then
the working directory read-write, then the target executable, then the
process wrapper. -/
theorem composeBindings_order (entries : List TmpDirEntry)
    (optsBindings : List SBinding)
    (outputDir workdir execPath wrapperPath : String) :
    composeBindings entries optsBindings outputDir workdir execPath wrapperPath =
      (entries.filterMap fun e =>
        if e.isDir ∧ e.accessible ∧ ¬ e.isChrootDir
        then some ⟨"/tmp" ++ e.name, "", 0⟩ else none)
      ++ optsBindings ++ confDefaultBindings
      ++ (if outputDir ≠ "" then [⟨outputDir, "", 1⟩] else [])
      ++ [⟨workdir, "", 1⟩, ⟨execPath, "", 0⟩, ⟨wrapperPath, "", 0⟩] := by
  have htmp : tmpSubdirBindings entries =
      entries.filterMap fun e =>
        if e.isDir ∧ e.accessible ∧ ¬ e.isChrootDir
        then some ⟨"/tmp" ++ e.name, "", 0⟩ else none := by
    suffices haux : ∀ (acc : List SBinding),
        entries.foldl (fun bindings e =>
          if ¬ e.isDir then bindings
          else if ¬ e.accessible then bindings
          else if e.isChrootDir then bindings
          else bindings ++ [⟨"/tmp" ++ e.name, "", 0⟩]) acc =
        acc ++ (entries.filterMap fun e =>
          if e.isDir ∧ e.accessible ∧ ¬ e.isChrootDir
          then some ⟨"/tmp" ++ e.name, "", 0⟩ else none) by
      have h0 := haux []
      rw [List.nil_append] at h0
      exact h0
    induction entries with
    | nil => intro acc; simp
    | cons e rest ih =>
      intro acc
      rw [List.foldl_cons, List.filterMap_cons]
      by_cases h1 : e.isDir
      · by_cases h2 : e.accessible
        · by_cases h3 : e.isChrootDir
          · simp only [h1, h2, h3]
            rw [ih]
            simp
          · simp only [h1, h2, h3]
            rw [ih]
            simp [List.append_assoc]
        · simp only [h1, h2]
          rw [ih]
          simp
      · simp only [h1]
        rw [ih]
        simp
  unfold composeBindings
  rw [htmp]
  by_cases ho : outputDir = "" <;> simp [ho, List.append_assoc]

/-! ## Maven adapter (internal/build/maven/maven.go) -/

/-- The fields of `build.Result` set by the Maven adapter (maven.go lines
96-103; the `build.Result` struct itself is outside the provided
sources, its fields are those of the composite literal). -/
structure BuildResult where
  Name : String
  BuildDir : String
  ProjectDir : String
  GeneratedCorpus : String
  SeedCorpus : String
  RuntimeDeps : List String
  deriving DecidableEq, Repr

/-- Translation of `GetBuildDirectory` (maven.go lines 197-217): the raw
stdout of `mvn help:evaluate -Dexpression=project.build.directory` is
returned as a string, with no trimming and no canonicalization. -/
def GetBuildDirectory (mvnOutput : String) : String := mvnOutput

/-- Translation of `getExternalDependencies` (maven.go lines 108-135):
the contents of the classpath file written by
`mvn dependency:build-classpath` are trimmed and split on
`os.PathListSeparator` (`':'` on Unix); the entries are not
canonicalized. -/
def getExternalDependencies (cpFileContent : String) : List String :=
  cpFileContent.trim.splitOn ":"

/-- Translation of `getLocalDependencies` (maven.go lines 137-169): the
output and test-output directories and the resource directories, exactly
as read from the `help:evaluate` XML. -/
def getLocalDependencies (outputDirectory testOutputDirectory : String)
    (resourceDirs testResourceDirs : List String) : List String :=
  [outputDirectory, testOutputDirectory] ++ resourceDirs ++ testResourceDirs

/-- Translation of `Builder.Build` (maven.go lines 60-106), parameterized
by the outputs of the external `mvn` invocations and by the corpus paths
computed by `cmdutils.JazzerSeedCorpus`/`JazzerGeneratedCorpus` (which
are outside the provided sources). -/
def mavenBuild (targetClass projectDir cpFileContent outputDirectory
    testOutputDirectory : String) (resourceDirs testResourceDirs : List String)
    (buildDirOutput seedCorpus generatedCorpus : String) : BuildResult :=
  { Name := targetClass
    BuildDir := GetBuildDirectory buildDirOutput
    ProjectDir := projectDir
    GeneratedCorpus := generatedCorpus
    SeedCorpus := seedCorpus
    RuntimeDeps := getExternalDependencies cpFileContent ++
      getLocalDependencies outputDirectory testOutputDirectory
        resourceDirs testResourceDirs }

/-- `filepath.IsAbs` on Unix: the path starts with a slash. -/
def isAbsolutePath (p : String) : Bool :=
  match p.toList with
  | [] => false
  | c :: _ => c = '/'

/-- Claim C7, counterexample: when `mvn help:evaluate` reports the
relative build directory `"target\n"` (raw stdout, newline included),
the Maven adapter stores it verbatim in `BuildDir`: the result is neither
absolute nor canonicalized, refuting "all path fields ... are absolute
and symlink-free" and "the Maven adapter canonicalizes every path it
returns". -/
theorem mavenBuild_keeps_relative_buildDir :
    isAbsolutePath (mavenBuild "com.example.FuzzTest" "/proj" "/a.jar:/b.jar"
      "/proj/classes" "/proj/test-classes" [] [] "target\n" "/proj/seeds"
      "/proj/gen").BuildDir = false ∧
    (mavenBuild "com.example.FuzzTest" "/proj" "/a.jar:/b.jar"
      "/proj/classes" "/proj/test-classes" [] [] "target\n" "/proj/seeds"
      "/proj/gen").BuildDir = "target\n" := by
  refine ⟨by decide, rfl⟩

/-- Claim C7 (amended): the Maven adapter applies no canonicalization at
all — `BuildDir` is the raw `mvn help:evaluate` output, `RuntimeDeps`
are the trimmed classpath-file entries split on `':'` followed by the
XML directory values verbatim, and `ProjectDir` and the corpus paths are
passed through unchanged; the path fields are absolute and symlink-free
only when those inputs already are. -/
theorem mavenBuild_paths_verbatim (targetClass projectDir cpFileContent
    outputDirectory testOutputDirectory : String)
    (resourceDirs testResourceDirs : List String)
    (buildDirOutput seedCorpus generatedCorpus : String) :
    (mavenBuild targetClass projectDir cpFileContent outputDirectory
      testOutputDirectory resourceDirs testResourceDirs buildDirOutput
      seedCorpus generatedCorpus).BuildDir = buildDirOutput ∧
    (mavenBuild targetClass projectDir cpFileContent outputDirectory
      testOutputDirectory resourceDirs testResourceDirs buildDirOutput
      seedCorpus generatedCorpus).ProjectDir = projectDir ∧
    (mavenBuild targetClass projectDir cpFileContent outputDirectory
      testOutputDirectory resourceDirs testResourceDirs buildDirOutput
      seedCorpus generatedCorpus).GeneratedCorpus = generatedCorpus ∧
    (mavenBuild targetClass projectDir cpFileContent outputDirectory
      testOutputDirectory resourceDirs testResourceDirs buildDirOutput
      seedCorpus generatedCorpus).SeedCorpus = seedCorpus ∧
    (mavenBuild targetClass projectDir cpFileContent outputDirectory
      testOutputDirectory resourceDirs testResourceDirs buildDirOutput
      seedCorpus generatedCorpus).RuntimeDeps =
      cpFileContent.trim.splitOn ":" ++
        ([outputDirectory, testOutputDirectory] ++ resourceDirs ++
          testResourceDirs) :=
  ⟨rfl, rfl, rfl, rfl, rfl⟩

/-! ## CMake build directory (part_001, lines 88-103) -/

/-- Model of `strings.Join` for string separators, on character lists. -/
def goStringsJoin : List GoStr → GoStr → GoStr
  | [], _ => []
  | [a], _ => a
  | a :: b :: rest, sep => a ++ sep ++ goStringsJoin (b :: rest) sep

/-- One step of `filepath.Clean`'s component processing (Unix rules):
empty and `"."` components are dropped; `".."` pops the last real
component, is dropped at the root, and is kept when there is nothing to
pop in a relative path; other components are appended. -/
def cleanPush (rooted : Bool) (out : List GoStr) (c : GoStr) : List GoStr :=
  if c = [] ∨ c = ['.'] then out
  else if c = ['.', '.'] then
    if out ≠ [] ∧ out.getLast? ≠ some ['.', '.'] then out.dropLast
    else if rooted then out
    else out ++ [c]
  else out ++ [c]

/-- Model of `path/filepath.Clean` on Unix: split on `'/'`, process the
components, rejoin; an empty result is `"."` (or `"/"` when rooted). -/
def goFilepathClean (p : GoStr) : GoStr :=
  if p = [] then ['.']
  else
    if p.head? = some '/' then
      '/' :: goStringsJoin ((splitChar '/' p).foldl (cleanPush true) []) ['/']
    else
      if goStringsJoin ((splitChar '/' p).foldl (cleanPush false) []) ['/'] = []
      then ['.']
      else goStringsJoin ((splitChar '/' p).foldl (cleanPush false) []) ['/']

/-- Model of `path/filepath.Join`: Go joins the elements from the first
non-empty one with `"/"` and applies `Clean`; since `Clean` removes the
empty components contributed by empty elements, this equals cleaning the
join of the non-empty elements. -/
def goFilepathJoin (elems : List GoStr) : GoStr :=
  match elems.filter (fun e => e ≠ []) with
  | [] => []
  | l => goFilepathClean (goStringsJoin l ['/'])

/-- Translation of `Builder.BuildDir` (part_001 lines 88-103):
`filepath.Join(ProjectDir, ".cifuzz-build", Engine, sanitizersSegment)`
where `sanitizersSegment` is the sanitizers joined with `"+"`, or
`"none"` when that join is empty. -/
def cmakeBuildDir (projectDir engine : GoStr) (sanitizers : List GoStr) : GoStr :=
  goFilepathJoin [projectDir, ".cifuzz-build".toList, engine,
    if goStringsJoin sanitizers ['+'] = [] then "none".toList
    else goStringsJoin sanitizers ['+']]

/-- Modelled from the spec: the build-directory shape stated by claim C8,
`<project>/.cifuzz-build/<engine>/<sanitizers joined with '+'>`. -/
def specCmakeBuildDir (projectDir engine : GoStr) (sanitizers : List GoStr) :
    GoStr :=
  projectDir ++ '/' :: (".cifuzz-build".toList ++
    '/' :: (engine ++ '/' :: goStringsJoin sanitizers ['+']))

/-- Claim C8, counterexample: for an empty sanitizer list the last path
segment is `"none"`, not the empty join of sanitizers, so the build
directory is `<project>/.cifuzz-build/<engine>/none` and differs from the
claimed shape. -/
theorem cmakeBuildDir_empty_sanitizers_counterexample :
    cmakeBuildDir "/prj".toList "libfuzzer".toList [] =
      "/prj/.cifuzz-build/libfuzzer/none".toList ∧
    cmakeBuildDir "/prj".toList "libfuzzer".toList [] ≠
      specCmakeBuildDir "/prj".toList "libfuzzer".toList [] := by
  refine ⟨by decide, by decide⟩

/-- Claim C8 (amended): for every non-empty project directory and engine
string and every sanitizer list whose `"+"`-join is non-empty, provided
the expected path is already clean (no `"."`/`".."` segments, no double
or trailing slashes), the CMake build directory equals
`<project>/.cifuzz-build/<engine>/<sanitizers joined with '+'>`; for an
empty sanitizer join the last segment is `"none"` instead. -/
theorem cmakeBuildDir_shape (projectDir engine : GoStr)
    (sanitizers : List GoStr) (hpd : projectDir ≠ []) (heng : engine ≠ [])
    (hjoin : goStringsJoin sanitizers ['+'] ≠ [])
    (hclean : goFilepathClean (specCmakeBuildDir projectDir engine sanitizers) =
      specCmakeBuildDir projectDir engine sanitizers) :
    cmakeBuildDir projectDir engine sanitizers =
      specCmakeBuildDir projectDir engine sanitizers := by
  unfold cmakeBuildDir goFilepathJoin
  rw [if_neg hjoin]
  have hfilter : [projectDir, ".cifuzz-build".toList, engine,
      goStringsJoin sanitizers ['+']].filter (fun e => e ≠ []) =
      [projectDir, ".cifuzz-build".toList, engine,
        goStringsJoin sanitizers ['+']] := by
    apply List.filter_eq_self.mpr
    intro a ha
    rcases List.mem_cons.mp ha with h | h
    · simp [h, hpd]
    rcases List.mem_cons.mp h with h | h
    · simp [h]
    rcases List.mem_cons.mp h with h | h
    · simp [h, heng]
    rcases List.mem_cons.mp h with h | h
    · simp [h, hjoin]
    · cases h
  rw [hfilter]
  have hjoin4 : goStringsJoin [projectDir, ".cifuzz-build".toList, engine,
      goStringsJoin sanitizers ['+']] ['/'] =
      specCmakeBuildDir projectDir engine sanitizers := by
    simp [goStringsJoin, specCmakeBuildDir, List.append_assoc]
  show goFilepathClean (goStringsJoin [projectDir, ".cifuzz-build".toList,
    engine, goStringsJoin sanitizers ['+']] ['/']) =
    specCmakeBuildDir projectDir engine sanitizers
  rw [hjoin4, hclean]

/-- Claim C8 witness: the shape theorem applied to the project directory
`"/prj"`, engine `"libfuzzer"` and sanitizers `["address", "undefined"]`,
whose expected path `/prj/.cifuzz-build/libfuzzer/address+undefined` is
clean. -/
theorem cmakeBuildDir_shape_witness :
    cmakeBuildDir "/prj".toList "libfuzzer".toList
        ["address".toList, "undefined".toList] =
      specCmakeBuildDir "/prj".toList "libfuzzer".toList
        ["address".toList, "undefined".toList] :=
  cmakeBuildDir_shape "/prj".toList "libfuzzer".toList
    ["address".toList, "undefined".toList]
    (by decide) (by decide) (by decide) (by decide)

end Cifuzz
